import Mathlib

/-!
# Verification of the `export_manager` dataset/parcel lifecycle manager

A shallow embedding, in Lean 4, of the core of `export_manager`
(`src/export_manager/dataset.py` together with its helpers `_interval.py`
and `_fsutil.py`).  The filesystem contents of a dataset directory are
modelled explicitly (`DatasetState`), shell commands and filesystem
measurements are modelled as explicit oracle parameters, and each Python
function used by the claims is translated into an executable Lean
definition.  Python exceptions are modelled with `Except`/result records
that carry the (possibly partially mutated) state, mirroring the fact
that filesystem side effects performed before an exception persist.
-/

set_option maxHeartbeats 2000000

instance {ε α : Type} [DecidableEq ε] [DecidableEq α] : DecidableEq (Except ε α)
  | .ok a, .ok b =>
    if h : a = b then .isTrue (by rw [h]) else .isFalse (by simp [h])
  | .ok _, .error _ => .isFalse (by simp)
  | .error _, .ok _ => .isFalse (by simp)
  | .error e, .error f =>
    if h : e = f then .isTrue (by rw [h]) else .isFalse (by simp [h])

namespace ExportManager

/-! ## String helpers

These model the `pathlib`/`glob`/`re` operations that `dataset.py` uses.
All of them work on `String.data` (lists of characters) so that concrete
instances evaluate by `decide`. -/

/-- Models CPython `PurePath.stem`: the final path component without its last
suffix.  CPython strips from the last `'.'` at index `i` only when
`0 < i < len(name) - 1`; otherwise the name is returned unchanged. -/
def stemChars (cs : List Char) : List Char :=
  match ((List.range cs.length).filter (fun i => cs.getD i ' ' == '.')).getLast? with
  | some i => if 0 < i ∧ i < cs.length - 1 then cs.take i else cs
  | none => cs

/-- `stem` on strings (CPython `PurePath(name).stem`). -/
def stem (s : String) : String := ⟨stemChars s.data⟩

/-- Models the glob pattern `f'{parcel_id}*'`: a name matches iff it starts
with the parcel id. -/
def globStartsWith (pid name : String) : Bool :=
  pid.data.isPrefixOf name.data

/-- Models the glob pattern `'*.*'` used on the log directory: a name matches
iff it contains a `'.'`. -/
def globHasDot (name : String) : Bool :=
  name.data.contains '.'

/-- Structural (kernel-evaluable) lexicographic comparison of char lists;
proven equivalent to `List.Lex (· < ·)` below. -/
def charListLtB : List Char → List Char → Bool
  | [], [] => false
  | [], _ :: _ => true
  | _ :: _, [] => false
  | a :: as, b :: bs => if a < b then true else if b < a then false else charListLtB as bs

/-- Structural lexicographic string comparison; proven equivalent to
Lean's `· < ·` on `String` below, and used as the executable model of
Python string comparison. -/
def strLtB (a b : String) : Bool := charListLtB a.data b.data

/-- Models `_PARCEL_ID_FORMAT = re.compile('\\A\\d{4}-\\d{2}-\\d{2}T\\d{6}Z\\Z')`:
exactly 18 characters, digits in the date/time positions and the literal
characters `-`, `-`, `T`, `Z` in between. -/
def matchesParcelIdFormat (s : String) : Bool :=
  match s.data with
  | [y1, y2, y3, y4, c1, mo1, mo2, c2, d1, d2, c3, h1, h2, mi1, mi2, s1, s2, c4] =>
    y1.isDigit && y2.isDigit && y3.isDigit && y4.isDigit && c1 == '-' &&
    mo1.isDigit && mo2.isDigit && c2 == '-' && d1.isDigit && d2.isDigit &&
    c3 == 'T' && h1.isDigit && h2.isDigit && mi1.isDigit && mi2.isDigit &&
    s1.isDigit && s2.isDigit && c4 == 'Z'
  | _ => false

/-! ## Datetimes

`parse_parcel_id` returns a Python `datetime`.  Python compares two
(equal-timezone) datetimes by comparing their fields lexicographically, and
subtracting them uses the proleptic Gregorian calendar; both are modelled
below. -/

/-- A Python `datetime` (UTC, second precision), as produced by
`datetime.strptime(parcel_id, '%Y-%m-%dT%H%M%S%z')`. -/
structure PyDateTime where
  year : Nat
  month : Nat
  day : Nat
  hour : Nat
  minute : Nat
  second : Nat
deriving DecidableEq, Repr

/-- Gregorian leap-year test, as used by `datetime`. -/
def isLeapYear (y : Nat) : Bool :=
  y % 4 == 0 && (y % 100 != 0 || y % 400 == 0)

/-- Number of days in a month of a given year (`datetime` validation). -/
def daysInMonth (y m : Nat) : Nat :=
  match m with
  | 1 => 31
  | 2 => if isLeapYear y then 29 else 28
  | 3 => 31
  | 4 => 30
  | 5 => 31
  | 6 => 30
  | 7 => 31
  | 8 => 31
  | 9 => 30
  | 10 => 31
  | 11 => 30
  | 12 => 31
  | _ => 0

/-- Numeric value of a decimal digit character. -/
def digitVal (c : Char) : Nat := c.toNat - 48

/-- The `PyDateTime` denoted by the 14 digit characters of a parcel id. -/
def mkParcelDateTime (y1 y2 y3 y4 mo1 mo2 d1 d2 h1 h2 mi1 mi2 s1 s2 : Char) :
    PyDateTime :=
  ⟨((digitVal y1 * 10 + digitVal y2) * 10 + digitVal y3) * 10 + digitVal y4,
   digitVal mo1 * 10 + digitVal mo2,
   digitVal d1 * 10 + digitVal d2,
   digitVal h1 * 10 + digitVal h2,
   digitVal mi1 * 10 + digitVal mi2,
   digitVal s1 * 10 + digitVal s2⟩

/-- The calendar-range validation performed by `datetime.strptime` /
the `datetime` constructor. -/
def validDateTime (dt : PyDateTime) : Bool :=
  decide (1 ≤ dt.year) && decide (1 ≤ dt.month) && decide (dt.month ≤ 12) &&
  decide (1 ≤ dt.day) && decide (dt.day ≤ daysInMonth dt.year dt.month) &&
  decide (dt.hour ≤ 23) && decide (dt.minute ≤ 59) && decide (dt.second ≤ 59)

/-- Models `parse_parcel_id`: checks the regex (raising
`ParcelIDFormatException` otherwise, modelled as `.error`), then parses via
`datetime.strptime`, which validates the calendar ranges (year ≥ 1, month
1–12, day within the month, hour ≤ 23, minute ≤ 59, second ≤ 59) and raises
`ValueError` on violation. -/
def parse_parcel_id (s : String) : Except String PyDateTime :=
  match s.data with
  | [y1, y2, y3, y4, c1, mo1, mo2, c2, d1, d2, c3, h1, h2, mi1, mi2, s1, s2, c4] =>
    if y1.isDigit && y2.isDigit && y3.isDigit && y4.isDigit && c1 == '-' &&
        mo1.isDigit && mo2.isDigit && c2 == '-' && d1.isDigit && d2.isDigit &&
        c3 == 'T' && h1.isDigit && h2.isDigit && mi1.isDigit && mi2.isDigit &&
        s1.isDigit && s2.isDigit && c4 == 'Z' then
      if validDateTime (mkParcelDateTime y1 y2 y3 y4 mo1 mo2 d1 d2 h1 h2 mi1 mi2 s1 s2) then
        .ok (mkParcelDateTime y1 y2 y3 y4 mo1 mo2 d1 d2 h1 h2 mi1 mi2 s1 s2)
      else
        .error "ValueError"
    else
      .error ("ParcelIDFormatException: " ++ s)
  | _ => .error ("ParcelIDFormatException: " ++ s)

/-- Days since 1970-01-01 of a proleptic Gregorian civil date (the arithmetic
underlying Python `datetime` subtraction). -/
def daysFromCivil (y m d : Int) : Int :=
  let y' := y - (if m ≤ 2 then 1 else 0)
  let era := Int.fdiv y' 400
  let yoe := y' - era * 400
  let doy := Int.fdiv (153 * (m + (if 2 < m then -3 else 9)) + 2) 5 + d - 1
  let doe := yoe * 365 + Int.fdiv yoe 4 - Int.fdiv yoe 100 + doy
  era * 146097 + doe - 719468

/-- Seconds since the Unix epoch of a `PyDateTime`; `now - last` in
`is_due` is the difference of these values. -/
def PyDateTime.toEpochSeconds (dt : PyDateTime) : Int :=
  daysFromCivil dt.year dt.month dt.day * 86400
    + dt.hour * 3600 + dt.minute * 60 + dt.second

/-- Python `datetime.__lt__` for equal-timezone datetimes: lexicographic
comparison of the fields (CPython compares the packed time tuples). -/
def PyDateTime.lt (a b : PyDateTime) : Bool :=
  Nat.blt a.year b.year || (a.year == b.year && (
  Nat.blt a.month b.month || (a.month == b.month && (
  Nat.blt a.day b.day || (a.day == b.day && (
  Nat.blt a.hour b.hour || (a.hour == b.hour && (
  Nat.blt a.minute b.minute || (a.minute == b.minute &&
  Nat.blt a.second b.second)))))))))

example : parse_parcel_id "2020-01-02T030405Z" = .ok ⟨2020, 1, 2, 3, 4, 5⟩ := by decide
example : parse_parcel_id "2020-13-02T030405Z" = .error "ValueError" := by decide
example : (parse_parcel_id "2020-1-02T030405Z").isOk = false := by decide
example : PyDateTime.toEpochSeconds ⟨1970, 1, 1, 0, 0, 0⟩ = 0 := by decide
example : PyDateTime.toEpochSeconds ⟨2020, 1, 2, 0, 0, 0⟩ = 1577923200 := by decide
example : stem "2020-01-02T030405Z.tar.gz" = "2020-01-02T030405Z.tar" := by decide
example : stem "2020-01-02T030405Z.txt" = "2020-01-02T030405Z" := by decide
example : stem "foo" = "foo" := by decide

/-! ## C7: lexicographic order of parcel ids equals chronological order -/

theorem charList_lt_cons_iff {x y : Char} {xs ys : List Char} :
    (x :: xs) < (y :: ys) ↔ x < y ∨ (x = y ∧ xs < ys) := by
  constructor
  · intro h
    cases h with
    | cons h => exact Or.inr ⟨rfl, h⟩
    | rel h => exact Or.inl h
  · intro h
    rcases h with h | ⟨rfl, h⟩
    · exact List.Lex.rel h
    · exact List.Lex.cons h

theorem charList_nil_lt_nil_iff : (([] : List Char) < []) ↔ False := by
  constructor
  · intro h
    cases h
  · exact False.elim

theorem char_eq_iff_toNat {a b : Char} : a = b ↔ a.toNat = b.toNat :=
  ⟨fun h => by rw [h], fun h => Char.ext (UInt32.ext h)⟩

theorem char_lt_iff_toNat {a b : Char} : a < b ↔ a.toNat < b.toNat := Iff.rfl

theorem isDigit_bounds {c : Char} (h : c.isDigit = true) :
    48 ≤ c.toNat ∧ c.toNat ≤ 57 := by
  simp only [Char.isDigit, Bool.and_eq_true, decide_eq_true_eq] at h
  exact ⟨h.1, h.2⟩

/-- **C7.** For every two strings `a` and `b` that match the parcel id
pattern `\d{4}-\d{2}-\d{2}T\d{6}Z` (and parse, as every id occurring in a
run does), `a < b` lexicographically iff `parse_parcel_id a` is
chronologically earlier than `parse_parcel_id b`. -/
theorem parcel_id_lex_iff_chronological {a b : String} {ta tb : PyDateTime}
    (hfa : matchesParcelIdFormat a = true) (hfb : matchesParcelIdFormat b = true)
    (hpa : parse_parcel_id a = .ok ta) (hpb : parse_parcel_id b = .ok tb) :
    a < b ↔ PyDateTime.lt ta tb = true := by
  clear hfa hfb
  unfold parse_parcel_id at hpa hpb
  split at hpa
  · rename_i ay1 ay2 ay3 ay4 ac1 amo1 amo2 ac2 ad1 ad2 ac3 ah1 ah2 ami1 ami2 as1 as2 ac4 haeq
    split at hpa
    · rename_i hca
      split at hpa
      · rename_i hva
        split at hpb
        · rename_i by1 by2 by3 by4 bc1 bmo1 bmo2 bc2 bd1 bd2 bc3 bh1 bh2 bmi1 bmi2 bs1 bs2 bc4 hbeq
          split at hpb
          · rename_i hcb
            split at hpb
            · rename_i hvb
              simp only [Except.ok.injEq] at hpa hpb
              subst hpa hpb
              simp only [Bool.and_eq_true, and_assoc, beq_iff_eq] at hca hcb
              obtain ⟨hay1, hay2, hay3, hay4, hac1, hamo1, hamo2, hac2, had1, had2,
                hac3, hah1, hah2, hami1, hami2, has1, has2, hac4⟩ := hca
              obtain ⟨hby1, hby2, hby3, hby4, hbc1, hbmo1, hbmo2, hbc2, hbd1, hbd2,
                hbc3, hbh1, hbh2, hbmi1, hbmi2, hbs1, hbs2, hbc4⟩ := hcb
              subst hac1 hac2 hac3 hac4 hbc1 hbc2 hbc3 hbc4
              rw [String.lt_iff_toList_lt]
              simp only [String.toList]
              rw [haeq, hbeq]
              have B1 := isDigit_bounds hay1
              have B2 := isDigit_bounds hay2
              have B3 := isDigit_bounds hay3
              have B4 := isDigit_bounds hay4
              have B5 := isDigit_bounds hamo1
              have B6 := isDigit_bounds hamo2
              have B7 := isDigit_bounds had1
              have B8 := isDigit_bounds had2
              have B9 := isDigit_bounds hah1
              have B10 := isDigit_bounds hah2
              have B11 := isDigit_bounds hami1
              have B12 := isDigit_bounds hami2
              have B13 := isDigit_bounds has1
              have B14 := isDigit_bounds has2
              have C1 := isDigit_bounds hby1
              have C2 := isDigit_bounds hby2
              have C3 := isDigit_bounds hby3
              have C4 := isDigit_bounds hby4
              have C5 := isDigit_bounds hbmo1
              have C6 := isDigit_bounds hbmo2
              have C7 := isDigit_bounds hbd1
              have C8 := isDigit_bounds hbd2
              have C9 := isDigit_bounds hbh1
              have C10 := isDigit_bounds hbh2
              have C11 := isDigit_bounds hbmi1
              have C12 := isDigit_bounds hbmi2
              have C13 := isDigit_bounds hbs1
              have C14 := isDigit_bounds hbs2
              simp only [charList_lt_cons_iff, charList_nil_lt_nil_iff, lt_self_iff_false,
                false_or, and_false, or_false, eq_self_iff_true, true_and,
                char_lt_iff_toNat, char_eq_iff_toNat, PyDateTime.lt, mkParcelDateTime,
                digitVal, Bool.or_eq_true, Bool.and_eq_true, Nat.blt_eq, beq_iff_eq]
              omega
            · exact absurd hpb (by simp)
          · exact absurd hpb (by simp)
        · exact absurd hpb (by simp)
      · exact absurd hpa (by simp)
    · exact absurd hpa (by simp)
  · exact absurd hpa (by simp)

/-- Concrete instantiation of `parcel_id_lex_iff_chronological`. -/
theorem parcel_id_lex_iff_chronological_witness :
    ("2021-12-31T235959Z" : String) < "2022-01-01T000000Z" :=
  (@parcel_id_lex_iff_chronological "2021-12-31T235959Z" "2022-01-01T000000Z"
      ⟨2021, 12, 31, 23, 59, 59⟩ ⟨2022, 1, 1, 0, 0, 0⟩
      (by decide) (by decide) (by decide) (by decide)).mpr (by decide)

/-! ## Metrics table (metrics.csv)

The backing store is a CSV file: a header (list of column names) and one
list of string values per row.  `read_metrics` mirrors `csv.DictReader`
plus the duplicate-id check; `_update_metrics` mirrors the Python method,
including `csv.DictWriter`'s serialization of missing fields as empty
strings.  A Python `dict` is modelled as an insertion-ordered association
list; `dictSet` is `dict.__setitem__` (replace in place, else append). -/

/-- Contents of `metrics.csv`. -/
structure MetricsCsv where
  header : List String
  rows : List (List String)
deriving DecidableEq, Repr

/-- A Python dict of string keys, as an insertion-ordered association list. -/
def assocLookup {β : Type} (m : List (String × β)) (k : String) : Option β :=
  match m with
  | [] => none
  | (k', v) :: rest => if k' = k then some v else assocLookup rest k

/-- Python `dict.__setitem__`: replaces the value in place if the key is
present, appends otherwise. -/
def dictSet {β : Type} (m : List (String × β)) (k : String) (v : β) :
    List (String × β) :=
  match m with
  | [] => [(k, v)]
  | (k', v') :: rest => if k' = k then (k, v) :: rest else (k', v') :: dictSet rest k v

/-- A metrics row as produced by `csv.DictReader` / passed to
`csv.DictWriter`: a dict from column names to string values. -/
abbrev Row := List (String × String)

/-- `csv.DictReader` turns one line of values into a dict keyed by the
header. -/
def rowOfCsv (header : List String) (vals : List String) : Row :=
  header.zip vals

/-- `row.get(f, '')` for every header field, in header order: the dict a
row serializes to and reads back as (`csv.DictWriter` writes missing
fields as the empty string). -/
def headerRow (header : List String) (r : Row) : Row :=
  header.map (fun f => (f, (assocLookup r f).getD ""))

/-- The read loop of `read_metrics`: builds the `parcel_id → row` dict,
failing if a `parcel_id` repeats (or if the header has no `parcel_id`
column, which makes `row['parcel_id']` a `KeyError`). -/
def readRows (header : List String) :
    List (List String) → List (String × Row) → Except String (List (String × Row))
  | [], results => .ok results
  | vals :: rest, results =>
    match assocLookup (rowOfCsv header vals) "parcel_id" with
    | none => .error "KeyError: parcel_id"
    | some pid =>
      if (assocLookup results pid).isSome then
        .error ("parcel_id appears multiple times in metrics.csv: " ++ pid)
      else
        readRows header rest (results ++ [(pid, rowOfCsv header vals)])

/-- Models `read_metrics`: empty dict when `metrics.csv` is missing. -/
def read_metrics (csv : Option MetricsCsv) : Except String (List (String × Row)) :=
  match csv with
  | none => .ok []
  | some c => readRows c.header c.rows []

/-- `for key in row.keys(): if key not in fields: field_order.append(key)`. -/
def addRowKeys (fo : List String) (row : Row) : List String :=
  row.foldl (fun acc kv => if kv.1 ∈ acc then acc else acc ++ [kv.1]) fo

/-- The loop of `_update_metrics` over `updates.values()`: extends
`field_order` with unseen keys and assigns `metrics[row['parcel_id']] = row`. -/
def updateLoop :
    List Row → List String → List (String × Row) →
    Except String (List String × List (String × Row))
  | [], fo, m => .ok (fo, m)
  | row :: rest, fo, m =>
    match assocLookup row "parcel_id" with
    | none => .error "KeyError: parcel_id"
    | some pid => updateLoop rest (addRowKeys fo row) (dictSet m pid row)

/-- Stable insertion into a list sorted by `key` (before the first element
with a strictly greater key, after all elements with smaller-or-equal
keys). -/
def insertByKey {β : Type} (key : β → String) (a : β) : List β → List β
  | [] => [a]
  | b :: bs => if strLtB (key b) (key a) then b :: insertByKey key a bs else a :: b :: bs

/-- Stable sort by `key`; Python's `sorted` is a stable sort, and stable
sorting is extensionally unique, so this models
`sorted(metrics.values(), key=itemgetter('parcel_id'))`. -/
def sortByKey {β : Type} (key : β → String) : List β → List β
  | [] => []
  | a :: rest => insertByKey key a (sortByKey key rest)

/-- `field_order = list(next(iter(metrics.values())).keys()) if metrics else []`:
the keys of the first row of the read-back store. -/
def metricsFieldOrder (m : List (String × Row)) : List String :=
  match m with
  | [] => []
  | (_, r) :: _ => r.map Prod.fst

/-- Models `_update_metrics`.  The Python method receives a dict
`parcel_ids → row` but only ever iterates `updates.values()` (each row
carries its own `parcel_id`); the embedding therefore takes the list of
update rows in iteration order.  Returns the new store contents (the
method rewrites `metrics.csv` entirely, `csv.DictWriter` writing each
row's value for every `field_order` column, `''` when absent). -/
def update_metrics (csv : Option MetricsCsv) (updates : List Row) :
    Except String (Option MetricsCsv) :=
  if updates.isEmpty then .ok csv
  else
    match read_metrics csv with
    | .error e => .error e
    | .ok metrics =>
      match updateLoop updates (metricsFieldOrder metrics) metrics with
      | .error e => .error e
      | .ok (fieldOrder, metrics') =>
        .ok (some ⟨fieldOrder, (sortByKey (fun kv => kv.1) metrics').map
          (fun kv => (headerRow fieldOrder kv.2).map Prod.snd)⟩)

/-- The store created by `initialize`: the header line
`parcel_id,success,files,bytes` and no rows. -/
def initialMetricsCsv : MetricsCsv :=
  ⟨["parcel_id", "success", "files", "bytes"], []⟩

example :
    update_metrics (some initialMetricsCsv)
      [[("parcel_id", "1999-01-02T030405Z"), ("party_intensity", "100")],
       [("parcel_id", "2000-01-02T030405Z"), ("party_intensity", "1")]] =
    .ok (some ⟨["parcel_id", "party_intensity"],
      [["1999-01-02T030405Z", "100"], ["2000-01-02T030405Z", "1"]]⟩) := by decide

example :
    update_metrics
      (some ⟨["parcel_id", "party_intensity"],
        [["1999-01-02T030405Z", "100"], ["2000-01-02T030405Z", "1"]]⟩)
      [[("parcel_id", "1999-01-02T030405Z"), ("party_intensity", "9000"),
        ("bugs", "1000000000")],
       [("parcel_id", "2020-01-02T030405Z"), ("bugs", "2000000000")]] =
    .ok (some ⟨["parcel_id", "party_intensity", "bugs"],
      [["1999-01-02T030405Z", "9000", "1000000000"],
       ["2000-01-02T030405Z", "1", ""],
       ["2020-01-02T030405Z", "", "2000000000"]]⟩) := by decide

/-! ## Association list and sorting lemmas -/

section AssocLemmas

variable {β : Type}

theorem assocLookup_eq_none {m : List (String × β)} {k : String} :
    assocLookup m k = none ↔ k ∉ m.map Prod.fst := by
  induction m with
  | nil => simp [assocLookup]
  | cons kv rest ih =>
    obtain ⟨k', v⟩ := kv
    by_cases h : k' = k
    · subst h
      simp [assocLookup]
    · simp [assocLookup, h, ih, Ne.symm h]

theorem assocLookup_isSome_of_mem {m : List (String × β)} {k : String}
    (h : k ∈ m.map Prod.fst) : (assocLookup m k).isSome := by
  rcases heq : assocLookup m k with _ | v
  · exact absurd (assocLookup_eq_none.1 heq) (by simpa using h)
  · rfl

theorem mem_of_assocLookup_eq_some {m : List (String × β)} {k : String} {v : β}
    (h : assocLookup m k = some v) : (k, v) ∈ m := by
  induction m with
  | nil => simp [assocLookup] at h
  | cons kv rest ih =>
    obtain ⟨k', v'⟩ := kv
    by_cases hk : k' = k
    · subst hk
      simp [assocLookup] at h
      simp [h]
    · simp [assocLookup, hk] at h
      simp [ih h]

theorem assocLookup_eq_some_of_mem {m : List (String × β)} {k : String} {v : β}
    (hnd : (m.map Prod.fst).Nodup) (h : (k, v) ∈ m) : assocLookup m k = some v := by
  induction m with
  | nil => simp at h
  | cons kv rest ih =>
    obtain ⟨k', v'⟩ := kv
    simp only [List.map_cons, List.nodup_cons] at hnd
    rcases List.mem_cons.1 h with h | h
    · obtain ⟨rfl, rfl⟩ := Prod.mk.injEq .. ▸ h
      simp [assocLookup]
    · have hk : k' ≠ k := by
        rintro rfl
        exact hnd.1 (List.mem_map.2 ⟨(k', v), h, rfl⟩)
      simp [assocLookup, hk, ih hnd.2 h]

theorem assocLookup_append {m₁ m₂ : List (String × β)} {k : String} :
    assocLookup (m₁ ++ m₂) k =
      ((assocLookup m₁ k).or (assocLookup m₂ k)) := by
  induction m₁ with
  | nil => simp [assocLookup]
  | cons kv rest ih =>
    obtain ⟨k', v⟩ := kv
    by_cases h : k' = k <;> simp [assocLookup, h, ih]

theorem dictSet_map_fst_of_mem {m : List (String × β)} {k : String} {v : β}
    (h : k ∈ m.map Prod.fst) :
    (dictSet m k v).map Prod.fst = m.map Prod.fst := by
  induction m with
  | nil => simp at h
  | cons kv rest ih =>
    obtain ⟨k', v'⟩ := kv
    by_cases hk : k' = k
    · subst hk
      simp [dictSet]
    · simp only [List.map_cons, List.mem_cons] at h
      rcases h with h | h

      · exact absurd h.symm hk
      · simp [dictSet, hk, ih h]

theorem dictSet_map_fst_of_not_mem {m : List (String × β)} {k : String} {v : β}
    (h : k ∉ m.map Prod.fst) :
    (dictSet m k v).map Prod.fst = m.map Prod.fst ++ [k] := by
  induction m with
  | nil => simp [dictSet]
  | cons kv rest ih =>
    obtain ⟨k', v'⟩ := kv
    simp only [List.map_cons, List.mem_cons] at h
    push_neg at h
    simp [dictSet, Ne.symm h.1, ih h.2]

theorem assocLookup_dictSet_self {m : List (String × β)} {k : String} {v : β} :
    assocLookup (dictSet m k v) k = some v := by
  induction m with
  | nil => simp [dictSet, assocLookup]
  | cons kv rest ih =>
    obtain ⟨k', v'⟩ := kv
    by_cases hk : k' = k <;> simp [dictSet, hk, assocLookup, ih]

theorem assocLookup_dictSet_ne {m : List (String × β)} {k k' : String} {v : β}
    (h : k' ≠ k) :
    assocLookup (dictSet m k v) k' = assocLookup m k' := by
  induction m with
  | nil => simp [dictSet, assocLookup, Ne.symm h]
  | cons kv rest ih =>
    obtain ⟨k'', v'⟩ := kv
    by_cases hk : k'' = k
    · subst hk
      simp [dictSet, assocLookup, Ne.symm h]
    · by_cases hk' : k'' = k' <;> simp [dictSet, hk, assocLookup, hk', ih, h]

end AssocLemmas

theorem charListLtB_iff {as : List Char} : ∀ {bs : List Char},
    charListLtB as bs = true ↔ as < bs := by
  induction as with
  | nil =>
    intro bs
    cases bs with
    | nil => simp [charListLtB, charList_nil_lt_nil_iff]
    | cons b bs =>
      apply iff_of_true (by simp [charListLtB])
      exact List.Lex.nil
  | cons a as ih =>
    intro bs
    cases bs with
    | nil =>
      apply iff_of_false (by simp [charListLtB])
      exact List.Lex.not_nil_right _ _
    | cons b bs =>
      rw [charList_lt_cons_iff,
        show charListLtB (a :: as) (b :: bs) =
          (if a < b then true else if b < a then false else charListLtB as bs) from rfl]
      by_cases hab : a < b
      · simp [hab]
      · by_cases hba : b < a
        · have hne : a ≠ b := fun h => absurd (h ▸ hba) (lt_irrefl a)
          simp [hab, hba, hne]
        · have heq : a = b := le_antisymm (not_lt.1 hba) (not_lt.1 hab)
          simp [hab, hba, heq, ih]

theorem strLtB_iff {a b : String} : strLtB a b = true ↔ a < b := by
  rw [String.lt_iff_toList_lt]
  exact charListLtB_iff

theorem strLtB_eq_false_iff {a b : String} : strLtB a b = false ↔ b ≤ a := by
  rw [← not_lt, ← strLtB_iff, Bool.eq_false_iff]

section SortLemmas

variable {β : Type} {key : β → String}

theorem insertByKey_perm (key : β → String) (a : β) (l : List β) :
    List.Perm (insertByKey key a l) (a :: l) := by
  induction l with
  | nil => exact List.Perm.refl _
  | cons b bs ih =>
    simp only [insertByKey]
    split
    · exact ((ih.cons b).trans (List.Perm.swap _ _ _))
    · exact List.Perm.refl _

theorem sortByKey_perm (key : β → String) (l : List β) :
    List.Perm (sortByKey key l) l := by
  induction l with
  | nil => exact List.Perm.refl _
  | cons a as ih =>
    exact (insertByKey_perm key a (sortByKey key as)).trans (ih.cons a)

theorem insertByKey_pairwise {a : β} {l : List β}
    (h : l.Pairwise (fun x y => key x ≤ key y)) :
    (insertByKey key a l).Pairwise (fun x y => key x ≤ key y) := by
  induction l with
  | nil => simp [insertByKey]
  | cons b bs ih =>
    rw [List.pairwise_cons] at h
    obtain ⟨hb, hbs⟩ := h
    simp only [insertByKey]
    split
    · rename_i hlt
      rw [strLtB_iff] at hlt
      refine List.pairwise_cons.2 ⟨?_, ih hbs⟩
      intro c hc
      rcases List.mem_cons.1 ((insertByKey_perm key a bs).mem_iff.1 hc) with rfl | hc
      · exact le_of_lt hlt
      · exact hb c hc
    · rename_i hge
      rw [Bool.not_eq_true, strLtB_eq_false_iff] at hge
      refine List.pairwise_cons.2 ⟨?_, List.pairwise_cons.2 ⟨hb, hbs⟩⟩
      intro c hc
      rcases List.mem_cons.1 hc with rfl | hc
      · exact hge
      · exact le_trans hge (hb c hc)

theorem sortByKey_pairwise (key : β → String) (l : List β) :
    (sortByKey key l).Pairwise (fun x y => key x ≤ key y) := by
  induction l with
  | nil => simp [sortByKey]
  | cons a as ih => exact insertByKey_pairwise ih

theorem sortByKey_eq_self {l : List β}
    (h : l.Pairwise (fun x y => key x ≤ key y)) :
    sortByKey key l = l := by
  induction l with
  | nil => rfl
  | cons a as ih =>
    rw [List.pairwise_cons] at h
    simp only [sortByKey, ih h.2]
    cases as with
    | nil => simp [insertByKey]
    | cons b bs =>
      have hb : strLtB (key b) (key a) = false :=
        strLtB_eq_false_iff.2 (h.1 b (by simp))
      simp [insertByKey, hb]

theorem assocLookup_eq_of_perm {m₁ m₂ : List (String × β)} (hp : List.Perm m₁ m₂)
    (hnd : (m₁.map Prod.fst).Nodup) (k : String) :
    assocLookup m₁ k = assocLookup m₂ k := by
  have hnd₂ : (m₂.map Prod.fst).Nodup := ((hp.map Prod.fst).nodup_iff).1 hnd
  rcases h₁ : assocLookup m₁ k with _ | v
  · rcases h₂ : assocLookup m₂ k with _ | v
    · rfl
    · have hm := (hp.mem_iff).2 (mem_of_assocLookup_eq_some h₂)
      have : k ∈ m₁.map Prod.fst := List.mem_map.2 ⟨(k, v), hm, rfl⟩
      exact absurd this (assocLookup_eq_none.1 h₁)
  · have hm := (hp.mem_iff).1 (mem_of_assocLookup_eq_some h₁)
    exact (assocLookup_eq_some_of_mem hnd₂ hm).symm

end SortLemmas

/-! ## Row serialization lemmas -/

theorem headerRow_map_fst {fo : List String} {r : Row} :
    (headerRow fo r).map Prod.fst = fo := by
  have hid : (Prod.fst ∘ fun f : String => (f, (assocLookup r f).getD "")) = id := rfl
  rw [headerRow, List.map_map, hid, List.map_id]

theorem assocLookup_headerRow {fo : List String} {r : Row} {k : String} :
    assocLookup (headerRow fo r) k =
      if k ∈ fo then some ((assocLookup r k).getD "") else none := by
  induction fo with
  | nil => simp [headerRow, assocLookup]
  | cons f fs ih =>
    by_cases hf : f = k
    · subst hf
      simp [headerRow, assocLookup]
    · have hstep : assocLookup (headerRow (f :: fs) r) k = assocLookup (headerRow fs r) k := by
        rw [show headerRow (f :: fs) r =
          (f, (assocLookup r f).getD "") :: headerRow fs r from rfl]
        simp [assocLookup, hf]
      rw [hstep, ih]
      simp [Ne.symm hf]

theorem rowOfCsv_headerRow {fo : List String} {r : Row} :
    rowOfCsv fo ((headerRow fo r).map Prod.snd) = headerRow fo r := by
  induction fo with
  | nil => rfl
  | cons f fs ih => simpa [rowOfCsv, headerRow] using ih

theorem headerRow_headerRow {fo : List String} {r : Row} :
    headerRow fo (headerRow fo r) = headerRow fo r := by
  apply List.map_congr_left
  intro f hf
  rw [assocLookup_headerRow]
  simp [hf]

theorem rowOfCsv_map_fst {fo : List String} {vals : List String}
    (h : vals.length = fo.length) : (rowOfCsv fo vals).map Prod.fst = fo := by
  simp [rowOfCsv, List.map_fst_zip, h.ge]

/-! ## Field-order accumulation lemmas -/

theorem addRowKeys_cons {fo : List String} {kv : String × String} {rest : Row} :
    addRowKeys fo (kv :: rest) =
      addRowKeys (if kv.1 ∈ fo then fo else fo ++ [kv.1]) rest := rfl

theorem addRowKeys_nodup {row : Row} : ∀ {fo : List String},
    fo.Nodup → (addRowKeys fo row).Nodup := by
  induction row with
  | nil => intro fo h; exact h
  | cons kv rest ih =>
    intro fo h
    rw [addRowKeys_cons]
    by_cases hm : kv.1 ∈ fo
    · simpa [hm] using ih h
    · have : (fo ++ [kv.1]).Nodup := by simp [List.nodup_append, h, hm]
      simpa [hm] using ih this

theorem addRowKeys_pref {row : Row} : ∀ {fo : List String},
    fo <+: addRowKeys fo row := by
  induction row with
  | nil => intro fo; exact List.prefix_refl _
  | cons kv rest ih =>
    intro fo
    rw [addRowKeys_cons]
    by_cases hm : kv.1 ∈ fo
    · simpa [hm] using ih
    · simp only [hm, if_false]
      exact (List.prefix_append fo [kv.1]).trans ih

theorem mem_addRowKeys {row : Row} : ∀ {fo : List String} {k : String},
    k ∈ addRowKeys fo row ↔ k ∈ fo ∨ k ∈ row.map Prod.fst := by
  induction row with
  | nil => simp [addRowKeys]
  | cons kv rest ih =>
    intro fo k
    rw [addRowKeys_cons, ih]
    by_cases hm : kv.1 ∈ fo
    · by_cases hk : k = kv.1 <;> simp [hm, hk]
    · by_cases hk : k = kv.1 <;> simp [hm, hk]

theorem addRowKeys_eq_self {row : Row} : ∀ {fo : List String},
    (∀ k ∈ row.map Prod.fst, k ∈ fo) → addRowKeys fo row = fo := by
  induction row with
  | nil => intro fo _; rfl
  | cons kv rest ih =>
    intro fo h
    have hm : kv.1 ∈ fo := h kv.1 (by simp)
    rw [addRowKeys_cons, if_pos hm]
    exact ih (fun k hk => h k (by simp [hk]))

theorem foldl_addRowKeys_nodup {us : List Row} : ∀ {fo : List String},
    fo.Nodup → (us.foldl addRowKeys fo).Nodup := by
  induction us with
  | nil => intro fo h; exact h
  | cons u rest ih => intro fo h; exact ih (addRowKeys_nodup h)

theorem foldl_addRowKeys_pref {us : List Row} : ∀ {fo : List String},
    fo <+: us.foldl addRowKeys fo := by
  induction us with
  | nil => intro fo; exact List.prefix_refl _
  | cons u rest ih => intro fo; exact addRowKeys_pref.trans ih

theorem mem_foldl_addRowKeys {us : List Row} : ∀ {fo : List String} {k : String},
    k ∈ us.foldl addRowKeys fo ↔ k ∈ fo ∨ ∃ u ∈ us, k ∈ u.map Prod.fst := by
  induction us with
  | nil => simp
  | cons u rest ih =>
    intro fo k
    rw [List.foldl_cons, ih, mem_addRowKeys]
    simp
    tauto

theorem foldl_addRowKeys_eq_self {us : List Row} : ∀ {fo : List String},
    (∀ u ∈ us, ∀ k ∈ u.map Prod.fst, k ∈ fo) → us.foldl addRowKeys fo = fo := by
  induction us with
  | nil => intro fo _; rfl
  | cons u rest ih =>
    intro fo h
    rw [List.foldl_cons, addRowKeys_eq_self (h u (by simp))]
    exact ih (fun v hv => h v (by simp [hv]))

/-! ## Update-loop characterization -/

/-- `row['parcel_id']` of an update row (defaulting, for rows that carry
one, which the theorems assume via `isSome` hypotheses). -/
def updPid (u : Row) : String := (assocLookup u "parcel_id").getD ""

/-- One fold step of the metrics assignment loop. -/
def dictSetStep (m : List (String × Row)) (u : Row) : List (String × Row) :=
  dictSet m (updPid u) u

theorem updateLoop_eq {us : List Row} : ∀ {fo : List String} {m : List (String × Row)},
    (∀ u ∈ us, (assocLookup u "parcel_id").isSome) →
    updateLoop us fo m = .ok (us.foldl addRowKeys fo, us.foldl dictSetStep m) := by
  induction us with
  | nil => intro fo m _; rfl
  | cons u rest ih =>
    intro fo m h
    have hs := h u (by simp)
    rcases hu : assocLookup u "parcel_id" with _ | pid
    · rw [hu] at hs; simp at hs
    · simp only [updateLoop, hu, List.foldl_cons]
      rw [ih (fun v hv => h v (by simp [hv]))]
      have : dictSetStep m u = dictSet m pid u := by simp [dictSetStep, updPid, hu]
      rw [this]

theorem foldl_dictSetStep_lookup_of_ne {us : List Row} : ∀ {m : List (String × Row)}
    {k : String}, (∀ u ∈ us, updPid u ≠ k) →
    assocLookup (us.foldl dictSetStep m) k = assocLookup m k := by
  induction us with
  | nil => intro m k _; rfl
  | cons u rest ih =>
    intro m k h
    rw [List.foldl_cons, ih (fun v hv => h v (by simp [hv]))]
    exact assocLookup_dictSet_ne (Ne.symm (h u (by simp)))

theorem foldl_dictSetStep_lookup_mem {us : List Row} : ∀ {m : List (String × Row)}
    {u : Row}, u ∈ us → (us.map updPid).Nodup →
    assocLookup (us.foldl dictSetStep m) (updPid u) = some u := by
  induction us with
  | nil => intro m u hu _; simp at hu
  | cons u0 rest ih =>
    intro m u hu hnd
    simp only [List.map_cons, List.nodup_cons] at hnd
    rcases List.mem_cons.1 hu with rfl | hu
    · rw [List.foldl_cons,
        foldl_dictSetStep_lookup_of_ne
          (fun v hv he => hnd.1 (by rw [← he]; exact List.mem_map.2 ⟨v, hv, rfl⟩))]
      exact assocLookup_dictSet_self
    · rw [List.foldl_cons]
      exact ih hu hnd.2

theorem foldl_dictSetStep_map_fst_nodup {us : List Row} : ∀ {m : List (String × Row)},
    (m.map Prod.fst).Nodup → ((us.foldl dictSetStep m).map Prod.fst).Nodup := by
  induction us with
  | nil => intro m h; exact h
  | cons u rest ih =>
    intro m h
    rw [List.foldl_cons]
    apply ih
    by_cases hm : updPid u ∈ m.map Prod.fst
    · rw [dictSetStep, dictSet_map_fst_of_mem hm]; exact h
    · rw [dictSetStep, dictSet_map_fst_of_not_mem hm]
      simp [List.nodup_append, h, hm]

theorem foldl_dictSetStep_map_fst_of_mem {us : List Row} : ∀ {m : List (String × Row)},
    (∀ u ∈ us, updPid u ∈ m.map Prod.fst) →
    (us.foldl dictSetStep m).map Prod.fst = m.map Prod.fst := by
  induction us with
  | nil => intro m _; rfl
  | cons u rest ih =>
    intro m h
    have hm := h u (by simp)
    rw [List.foldl_cons, ih, dictSetStep, dictSet_map_fst_of_mem hm]
    intro v hv
    rw [dictSetStep, dictSet_map_fst_of_mem hm]
    exact h v (by simp [hv])

theorem map_dictSet_eq {γ : Type} {g : String × Row → γ} :
    ∀ {m : List (String × Row)} {k : String} {v old : Row},
    assocLookup m k = some old → g (k, v) = g (k, old) →
    (dictSet m k v).map g = m.map g := by
  intro m
  induction m with
  | nil => intro k v old h _; simp [assocLookup] at h
  | cons kv rest ih =>
    intro k v old h hg
    obtain ⟨k', v'⟩ := kv
    by_cases hk : k' = k
    · subst hk
      rw [show assocLookup ((k', v') :: rest) k' = some v' from by simp [assocLookup]] at h
      have hv' := Option.some.inj h
      subst hv'
      simp [dictSet, hg]
    · simp only [assocLookup, hk, if_false] at h
      simp [dictSet, hk, ih h hg]

theorem map_foldl_dictSetStep_eq {γ : Type} {g : String × Row → γ} {us : List Row} :
    ∀ {m : List (String × Row)}, (us.map updPid).Nodup →
    (∀ u ∈ us, ∃ old, assocLookup m (updPid u) = some old ∧
      g (updPid u, u) = g (updPid u, old)) →
    (us.foldl dictSetStep m).map g = m.map g := by
  induction us with
  | nil => intro m _ _; rfl
  | cons u0 rest ih =>
    intro m hnd h
    simp only [List.map_cons, List.nodup_cons] at hnd
    obtain ⟨old0, hold0, hg0⟩ := h u0 (by simp)
    rw [List.foldl_cons]
    rw [ih hnd.2 ?_, dictSetStep, map_dictSet_eq hold0 hg0]
    intro v hv
    obtain ⟨old, hold, hg⟩ := h v (by simp [hv])
    refine ⟨old, ?_, hg⟩
    rw [dictSetStep,
      assocLookup_dictSet_ne (fun he => hnd.1 (by rw [← he]; exact List.mem_map.2 ⟨v, hv, rfl⟩))]
    exact hold

/-! ## Read-loop characterization -/

theorem readRows_ok {fo : List String} {ps : List (String × Row)} :
    ∀ {acc : List (String × Row)},
    "parcel_id" ∈ fo →
    (∀ p ∈ ps, (assocLookup p.2 "parcel_id").getD "" = p.1) →
    ((acc ++ ps).map Prod.fst).Nodup →
    readRows fo (ps.map (fun kv => (headerRow fo kv.2).map Prod.snd)) acc =
      .ok (acc ++ ps.map (fun kv => (kv.1, headerRow fo kv.2))) := by
  induction ps with
  | nil => intro acc _ _ _; simp [readRows]
  | cons p rest ih =>
    intro acc hfo hv hnd
    obtain ⟨pid, r⟩ := p
    have hv0 : (assocLookup r "parcel_id").getD "" = pid := hv (pid, r) (by simp)
    have hpid : pid ∉ acc.map Prod.fst := by
      intro hmem
      have hd := List.disjoint_of_nodup_append
        (show (acc.map Prod.fst ++ (pid :: rest.map Prod.fst)).Nodup by simpa using hnd)
      exact hd hmem (by simp)
    simp only [List.map_cons, readRows, rowOfCsv_headerRow, assocLookup_headerRow,
      if_pos hfo, hv0]
    rw [assocLookup_eq_none.2 hpid]
    simp only [Option.isSome_none, Bool.false_eq_true, if_false]
    have := @ih (acc ++ [(pid, headerRow fo r)]) hfo
      (fun q hq => hv q (by simp [hq])) ?_
    · rw [this, List.append_assoc]
      simp
    · have : ((acc ++ [(pid, headerRow fo r)]) ++ rest).map Prod.fst =
        ((acc ++ (pid, r) :: rest)).map Prod.fst := by simp
      rw [this]
      exact hnd

theorem readRows_mem {fo : List String} {rows : List (List String)} :
    ∀ {acc m : List (String × Row)}, readRows fo rows acc = .ok m →
    ∀ p ∈ m, p ∈ acc ∨ ∃ vals ∈ rows, p.2 = rowOfCsv fo vals ∧
      assocLookup p.2 "parcel_id" = some p.1 := by
  induction rows with
  | nil =>
    intro acc m h p hp
    simp only [readRows, Except.ok.injEq] at h
    exact Or.inl (h ▸ hp)
  | cons vals rest ih =>
    intro acc m h p hp
    simp only [readRows] at h
    split at h
    · exact absurd h (by simp)
    · rename_i pid hlk
      split at h
      · exact absurd h (by simp)
      · rcases ih h p hp with hacc | ⟨vals', hv', hrest⟩
        · rcases List.mem_append.1 hacc with hacc | hone
          · exact Or.inl hacc
          · simp only [List.mem_singleton] at hone
            exact Or.inr ⟨vals, by simp, by rw [hone], by rw [hone]; exact hlk⟩
        · exact Or.inr ⟨vals', by simp [hv'], hrest⟩

theorem readRows_nodup {fo : List String} {rows : List (List String)} :
    ∀ {acc m : List (String × Row)}, readRows fo rows acc = .ok m →
    (acc.map Prod.fst).Nodup → (m.map Prod.fst).Nodup := by
  induction rows with
  | nil =>
    intro acc m h hnd
    simp only [readRows, Except.ok.injEq] at h
    exact h ▸ hnd
  | cons vals rest ih =>
    intro acc m h hnd
    simp only [readRows] at h
    split at h
    · exact absurd h (by simp)
    · rename_i pid hlk
      split at h
      · exact absurd h (by simp)
      · rename_i hdup
        refine ih h ?_
        have hpid : pid ∉ acc.map Prod.fst := by
          intro hmem
          rw [(assocLookup_isSome_of_mem hmem : (assocLookup acc pid).isSome = true)] at hdup
          exact hdup rfl
        simp [List.nodup_append, hnd, hpid]

/-! ## Metrics store well-formedness and read-back helpers -/

/-- Well-formedness of the backing store as `csv` module files have it:
no duplicate column names, and every row has one value per column. -/
def CsvOk : Option MetricsCsv → Prop
  | none => True
  | some c => c.header.Nodup ∧ ∀ vals ∈ c.rows, vals.length = c.header.length

instance : (csv : Option MetricsCsv) → Decidable (CsvOk csv)
  | none => .isTrue trivial
  | some c => inferInstanceAs
      (Decidable (c.header.Nodup ∧ ∀ vals ∈ c.rows, vals.length = c.header.length))

theorem mem_keys_of_isSome {β : Type} {m : List (String × β)} {k : String}
    (h : (assocLookup m k).isSome) : k ∈ m.map Prod.fst := by
  by_contra hc
  rw [assocLookup_eq_none.2 hc] at h
  simp at h

theorem assocLookup_map_pad {fo : List String} {l : List (String × Row)} {k : String} :
    assocLookup (l.map (fun kv => (kv.1, headerRow fo kv.2))) k =
      (assocLookup l k).map (headerRow fo) := by
  induction l with
  | nil => simp [assocLookup]
  | cons kv rest ih =>
    by_cases hk : kv.1 = k <;> simp [assocLookup, hk, ih]

theorem dictSet_entry {m : List (String × Row)} {k : String} {v : Row} {p : String × Row}
    (h : p ∈ dictSet m k v) : p ∈ m ∨ p = (k, v) := by
  induction m with
  | nil => simp [dictSet] at h; simp [h]
  | cons kv rest ih =>
    obtain ⟨k', v'⟩ := kv
    by_cases hk : k' = k
    · simp only [dictSet, hk, if_pos rfl] at h
      rcases List.mem_cons.1 h with rfl | h
      · exact Or.inr rfl
      · exact Or.inl (by simp [h])
    · simp only [dictSet, hk, if_false] at h
      rcases List.mem_cons.1 h with rfl | h
      · exact Or.inl (by simp)
      · rcases ih h with h | h
        · exact Or.inl (by simp [h])
        · exact Or.inr h

theorem foldl_dictSetStep_entry {us : List Row} :
    ∀ {m : List (String × Row)} {p : String × Row}, p ∈ us.foldl dictSetStep m →
    p ∈ m ∨ ∃ u ∈ us, p = (updPid u, u) := by
  induction us with
  | nil => intro m p h; exact Or.inl h
  | cons u rest ih =>
    intro m p h
    rw [List.foldl_cons] at h
    rcases ih h with h | ⟨v, hv, hp⟩
    · rcases dictSet_entry h with h | h
      · exact Or.inl h
      · exact Or.inr ⟨u, by simp, h⟩
    · exact Or.inr ⟨v, by simp [hv], hp⟩

theorem read_metrics_entry_facts {c : MetricsCsv} {m : List (String × Row)}
    (h : read_metrics (some c) = .ok m)
    (hlen : ∀ vals ∈ c.rows, vals.length = c.header.length) :
    ∀ p ∈ m, p.2.map Prod.fst = c.header ∧ assocLookup p.2 "parcel_id" = some p.1 := by
  intro p hp
  rcases readRows_mem h p hp with hacc | ⟨vals, hv, hrow, hlk⟩
  · simp at hacc
  · exact ⟨hrow ▸ rowOfCsv_map_fst (hlen vals hv), hlk⟩

theorem read_metrics_nodup {csv : Option MetricsCsv} {m : List (String × Row)}
    (h : read_metrics csv = .ok m) : (m.map Prod.fst).Nodup := by
  cases csv with
  | none =>
    simp only [read_metrics, Except.ok.injEq] at h
    simp [← h]
  | some c => exact readRows_nodup h (by simp)

theorem read_metrics_fo {csv : Option MetricsCsv} {m : List (String × Row)}
    (h : read_metrics csv = .ok m) (hwf : CsvOk csv) :
    (metricsFieldOrder m).Nodup ∧ ∀ p ∈ m, p.2.map Prod.fst = metricsFieldOrder m := by
  cases csv with
  | none =>
    simp only [read_metrics, Except.ok.injEq] at h
    subst h
    simp [metricsFieldOrder]
  | some c =>
    have hfacts := read_metrics_entry_facts h hwf.2
    cases m with
    | nil => simp [metricsFieldOrder]
    | cons p rest =>
      have hfo : metricsFieldOrder (p :: rest) = c.header := by
        simp [metricsFieldOrder, (hfacts p (by simp)).1]
      rw [hfo]
      exact ⟨hwf.1, fun q hq => (hfacts q hq).1⟩

theorem read_metrics_pid_facts {csv : Option MetricsCsv} {m : List (String × Row)}
    (h : read_metrics csv = .ok m) :
    ∀ p ∈ m, assocLookup p.2 "parcel_id" = some p.1 := by
  cases csv with
  | none =>
    simp only [read_metrics, Except.ok.injEq] at h
    subst h
    simp
  | some c =>
    intro p hp
    rcases readRows_mem h p hp with hacc | ⟨vals, _, _, hlk⟩
    · simp at hacc
    · exact hlk

/-- The spec's "union of all fields seen, in first-seen order"
(spec-modelled, to be compared with the header the code builds): scan the
given field sequence left to right and append each field not seen before
to the accumulator. -/
def firstSeenOrder (fo : List String) (ks : List String) : List String :=
  ks.foldl (fun acc k => if k ∈ acc then acc else acc ++ [k]) fo

/-- The keys of the update rows, row by row in batch order — the sequence
in which `_update_metrics`' loop sees fields. -/
def rowKeys : List Row → List String
  | [] => []
  | u :: rest => u.map Prod.fst ++ rowKeys rest

theorem addRowKeys_eq_firstSeenOrder : ∀ (u : Row) (fo : List String),
    addRowKeys fo u = firstSeenOrder fo (u.map Prod.fst) := by
  intro u
  induction u with
  | nil =>
    intro fo
    rfl
  | cons kv r ih =>
    intro fo
    show addRowKeys fo (kv :: r) = firstSeenOrder fo (kv.1 :: r.map Prod.fst)
    unfold addRowKeys firstSeenOrder
    simp only [List.foldl_cons]
    exact ih _

/-- The header `_update_metrics` accumulates is exactly the first-seen-order
scan of the existing columns followed by every update row's keys. -/
theorem foldl_addRowKeys_eq_firstSeenOrder : ∀ (updates : List Row) (fo : List String),
    updates.foldl addRowKeys fo = firstSeenOrder fo (rowKeys updates) := by
  intro updates
  induction updates with
  | nil =>
    intro fo
    rfl
  | cons u rest ih =>
    intro fo
    rw [List.foldl_cons, ih]
    show firstSeenOrder (addRowKeys fo u) (rowKeys rest) =
      firstSeenOrder fo (u.map Prod.fst ++ rowKeys rest)
    unfold firstSeenOrder
    rw [List.foldl_append]
    congr 1
    exact addRowKeys_eq_firstSeenOrder u fo

/-- **C5.**  For every existing metrics store and non-empty update batch
(rows carrying distinct `parcel_id`s, as the Python dict keyed by parcel id
provides): ids in the update get exactly the update row (absent fields
serialize as `""`); ids not in the update keep every previously stored
field value; the column set is the union of all fields seen *in first-seen
order* — the header equals the left-to-right first-occurrence scan of the
old columns followed by the update rows' keys in batch order (hence old
columns keep their positions and there are no duplicates); and the store
is rewritten sorted by parcel id. -/
theorem update_metrics_replaces_and_preserves
    {csv : Option MetricsCsv} {updates : List Row} {m : List (String × Row)}
    (hread : read_metrics csv = .ok m) (hwf : CsvOk csv)
    (hne : updates ≠ [])
    (hpids : ∀ u ∈ updates, (assocLookup u "parcel_id").isSome)
    (hdist : (updates.map updPid).Nodup) :
    ∃ c' m', update_metrics csv updates = .ok (some c') ∧
      read_metrics (some c') = .ok m' ∧
      (∀ u ∈ updates, assocLookup m' (updPid u) = some (headerRow c'.header u)) ∧
      (∀ pid r, assocLookup m pid = some r → (∀ u ∈ updates, updPid u ≠ pid) →
        ∃ r', assocLookup m' pid = some r' ∧
          ∀ k ∈ r.map Prod.fst, assocLookup r' k = assocLookup r k) ∧
      (∀ k, k ∈ c'.header ↔
        k ∈ metricsFieldOrder m ∨ ∃ u ∈ updates, k ∈ u.map Prod.fst) ∧
      c'.header = firstSeenOrder (metricsFieldOrder m) (rowKeys updates) ∧
      metricsFieldOrder m <+: c'.header ∧ c'.header.Nodup ∧
      (m'.map Prod.fst).Pairwise (· ≤ ·) := by
  have hempty : updates.isEmpty = false := by
    cases updates with
    | nil => exact absurd rfl hne
    | cons _ _ => rfl
  obtain ⟨hfo0nd, hfo0keys⟩ := read_metrics_fo hread hwf
  have hpidm := read_metrics_pid_facts hread
  have hmnd : (m.map Prod.fst).Nodup := read_metrics_nodup hread
  have hupd : update_metrics csv updates =
      .ok (some ⟨updates.foldl addRowKeys (metricsFieldOrder m),
        (sortByKey (fun kv => kv.1) (updates.foldl dictSetStep m)).map
          (fun kv => (headerRow (updates.foldl addRowKeys (metricsFieldOrder m)) kv.2).map
            Prod.snd)⟩) := by
    simp only [update_metrics, hempty, Bool.false_eq_true, if_false, hread,
      updateLoop_eq hpids]
  have hpidfo : "parcel_id" ∈ updates.foldl addRowKeys (metricsFieldOrder m) := by
    cases updates with
    | nil => exact absurd rfl hne
    | cons u0 rest =>
      exact mem_foldl_addRowKeys.2
        (Or.inr ⟨u0, by simp, mem_keys_of_isSome (hpids u0 (by simp))⟩)
  have hm'nd : ((updates.foldl dictSetStep m).map Prod.fst).Nodup :=
    foldl_dictSetStep_map_fst_nodup hmnd
  have hperm := sortByKey_perm (fun kv : String × Row => kv.1)
    (updates.foldl dictSetStep m)
  have hsortednd :
      ((sortByKey (fun kv : String × Row => kv.1)
        (updates.foldl dictSetStep m)).map Prod.fst).Nodup :=
    ((hperm.map Prod.fst).nodup_iff).2 hm'nd
  have hvals : ∀ p ∈ sortByKey (fun kv : String × Row => kv.1)
      (updates.foldl dictSetStep m),
      (assocLookup p.2 "parcel_id").getD "" = p.1 := by
    intro p hp
    rcases foldl_dictSetStep_entry (hperm.mem_iff.1 hp) with hp' | ⟨u, _, rfl⟩
    · rw [hpidm p hp']
      rfl
    · rfl
  have hrb := @readRows_ok (updates.foldl addRowKeys (metricsFieldOrder m))
    (sortByKey (fun kv : String × Row => kv.1) (updates.foldl dictSetStep m))
    [] hpidfo hvals (by simpa using hsortednd)
  rw [List.nil_append] at hrb
  refine ⟨_, _, hupd, hrb, ?_, ?_, ?_, ?_, ?_, ?_, ?_⟩
  · -- update rows fully replace
    intro u hu
    rw [assocLookup_map_pad, assocLookup_eq_of_perm hperm hsortednd,
      foldl_dictSetStep_lookup_mem hu hdist]
    rfl
  · -- untouched rows keep their values
    intro pid r hr hno
    have h1 : assocLookup (updates.foldl dictSetStep m) pid = some r := by
      rw [foldl_dictSetStep_lookup_of_ne hno]
      exact hr
    refine ⟨headerRow (updates.foldl addRowKeys (metricsFieldOrder m)) r, ?_, ?_⟩
    · rw [assocLookup_map_pad, assocLookup_eq_of_perm hperm hsortednd, h1]
      rfl
    · intro k hk
      rw [assocLookup_headerRow]
      have hkeys : r.map Prod.fst = metricsFieldOrder m :=
        hfo0keys (pid, r) (mem_of_assocLookup_eq_some hr)
      have hkfo : k ∈ updates.foldl addRowKeys (metricsFieldOrder m) :=
        (foldl_addRowKeys_pref).subset (by rw [← hkeys]; exact hk)
      rw [if_pos hkfo]
      rcases Option.isSome_iff_exists.1 (assocLookup_isSome_of_mem hk) with ⟨v, hv⟩
      rw [hv]
      rfl
  · -- header membership: union of all fields seen
    intro k
    exact mem_foldl_addRowKeys
  · -- the header is exactly the first-seen-order scan
    exact foldl_addRowKeys_eq_firstSeenOrder updates (metricsFieldOrder m)
  · -- old columns keep their positions
    exact foldl_addRowKeys_pref
  · -- no duplicate columns
    exact foldl_addRowKeys_nodup hfo0nd
  · -- rows sorted by parcel id
    have hp := sortByKey_pairwise (fun kv : String × Row => kv.1)
      (updates.foldl dictSetStep m)
    rw [List.map_map]
    have hcomp : (Prod.fst ∘ fun kv : String × Row =>
        (kv.1, headerRow (updates.foldl addRowKeys (metricsFieldOrder m)) kv.2)) =
        Prod.fst := rfl
    rw [hcomp, List.pairwise_map]
    exact hp

/-- Concrete instantiation of `update_metrics_replaces_and_preserves`
(the second update of the Python test scenario). -/
theorem update_metrics_replaces_and_preserves_witness :
    ∃ c' m', update_metrics
        (some ⟨["parcel_id", "party_intensity"],
          [["1999-01-02T030405Z", "100"], ["2000-01-02T030405Z", "1"]]⟩)
        [[("parcel_id", "1999-01-02T030405Z"), ("party_intensity", "9000"),
          ("bugs", "1000000000")],
         [("parcel_id", "2020-01-02T030405Z"), ("bugs", "2000000000")]] =
        .ok (some c') ∧
      read_metrics (some c') = .ok m' ∧
      (∀ u ∈ [[("parcel_id", "1999-01-02T030405Z"), ("party_intensity", "9000"),
          ("bugs", "1000000000")],
         [("parcel_id", "2020-01-02T030405Z"), ("bugs", "2000000000")]],
        assocLookup m' (updPid u) = some (headerRow c'.header u)) ∧
      (∀ pid r, assocLookup
          [("1999-01-02T030405Z",
            [("parcel_id", "1999-01-02T030405Z"), ("party_intensity", "100")]),
           ("2000-01-02T030405Z",
            [("parcel_id", "2000-01-02T030405Z"), ("party_intensity", "1")])] pid =
          some r →
        (∀ u ∈ [[("parcel_id", "1999-01-02T030405Z"), ("party_intensity", "9000"),
            ("bugs", "1000000000")],
           [("parcel_id", "2020-01-02T030405Z"), ("bugs", "2000000000")]],
          updPid u ≠ pid) →
        ∃ r', assocLookup m' pid = some r' ∧
          ∀ k ∈ r.map Prod.fst, assocLookup r' k = assocLookup r k) ∧
      (∀ k, k ∈ c'.header ↔
        k ∈ metricsFieldOrder
          [("1999-01-02T030405Z",
            [("parcel_id", "1999-01-02T030405Z"), ("party_intensity", "100")]),
           ("2000-01-02T030405Z",
            [("parcel_id", "2000-01-02T030405Z"), ("party_intensity", "1")])] ∨
        ∃ u ∈ [[("parcel_id", "1999-01-02T030405Z"), ("party_intensity", "9000"),
            ("bugs", "1000000000")],
           [("parcel_id", "2020-01-02T030405Z"), ("bugs", "2000000000")]],
          k ∈ u.map Prod.fst) ∧
      c'.header = firstSeenOrder
        (metricsFieldOrder
          [("1999-01-02T030405Z",
            [("parcel_id", "1999-01-02T030405Z"), ("party_intensity", "100")]),
           ("2000-01-02T030405Z",
            [("parcel_id", "2000-01-02T030405Z"), ("party_intensity", "1")])])
        (rowKeys [[("parcel_id", "1999-01-02T030405Z"), ("party_intensity", "9000"),
            ("bugs", "1000000000")],
           [("parcel_id", "2020-01-02T030405Z"), ("bugs", "2000000000")]]) ∧
      metricsFieldOrder
          [("1999-01-02T030405Z",
            [("parcel_id", "1999-01-02T030405Z"), ("party_intensity", "100")]),
           ("2000-01-02T030405Z",
            [("parcel_id", "2000-01-02T030405Z"), ("party_intensity", "1")])] <+:
        c'.header ∧
      c'.header.Nodup ∧ (m'.map Prod.fst).Pairwise (· ≤ ·) :=
  update_metrics_replaces_and_preserves (by decide) (by decide) (by decide)
    (by decide) (by decide)

/-- **C6.**  Updating the metrics store twice with the same batch leaves
exactly the store (header and rows) produced by the first update. -/
theorem update_metrics_idempotent
    {csv : Option MetricsCsv} {updates : List Row} {m : List (String × Row)}
    {c₁ : Option MetricsCsv}
    (hread : read_metrics csv = .ok m) (hwf : CsvOk csv)
    (hpids : ∀ u ∈ updates, (assocLookup u "parcel_id").isSome)
    (hdist : (updates.map updPid).Nodup)
    (h1 : update_metrics csv updates = .ok c₁) :
    update_metrics c₁ updates = .ok c₁ := by
  by_cases hne : updates = []
  · subst hne
    have h1' : Except.ok (ε := String) csv = .ok c₁ := h1
    have hc : csv = c₁ := Except.ok.inj h1'
    subst hc
    rfl
  · obtain ⟨u0, hu0⟩ : ∃ u, u ∈ updates := by
      cases updates with
      | nil => exact absurd rfl hne
      | cons a l => exact ⟨a, by simp⟩
    have hempty : updates.isEmpty = false := by
      cases updates with
      | nil => exact absurd rfl hne
      | cons _ _ => rfl
    obtain ⟨hfo0nd, hfo0keys⟩ := read_metrics_fo hread hwf
    have hpidm := read_metrics_pid_facts hread
    have hmnd : (m.map Prod.fst).Nodup := read_metrics_nodup hread
    have hupd : update_metrics csv updates =
        .ok (some ⟨updates.foldl addRowKeys (metricsFieldOrder m),
          (sortByKey (fun kv => kv.1) (updates.foldl dictSetStep m)).map
            (fun kv => (headerRow (updates.foldl addRowKeys (metricsFieldOrder m)) kv.2).map
              Prod.snd)⟩) := by
      simp only [update_metrics, hempty, Bool.false_eq_true, if_false, hread,
        updateLoop_eq hpids]
    have hpidfo : "parcel_id" ∈ updates.foldl addRowKeys (metricsFieldOrder m) :=
      mem_foldl_addRowKeys.2 (Or.inr ⟨u0, hu0, mem_keys_of_isSome (hpids u0 hu0)⟩)
    have hm'nd : ((updates.foldl dictSetStep m).map Prod.fst).Nodup :=
      foldl_dictSetStep_map_fst_nodup hmnd
    have hperm := sortByKey_perm (fun kv : String × Row => kv.1)
      (updates.foldl dictSetStep m)
    have hsortednd :
        ((sortByKey (fun kv : String × Row => kv.1)
          (updates.foldl dictSetStep m)).map Prod.fst).Nodup :=
      ((hperm.map Prod.fst).nodup_iff).2 hm'nd
    have hvals : ∀ p ∈ sortByKey (fun kv : String × Row => kv.1)
        (updates.foldl dictSetStep m),
        (assocLookup p.2 "parcel_id").getD "" = p.1 := by
      intro p hp
      rcases foldl_dictSetStep_entry (hperm.mem_iff.1 hp) with hp' | ⟨u, _, rfl⟩
      · rw [hpidm p hp']
        rfl
      · rfl
    have hrb := @readRows_ok (updates.foldl addRowKeys (metricsFieldOrder m))
      (sortByKey (fun kv : String × Row => kv.1) (updates.foldl dictSetStep m))
      [] hpidfo hvals (by simpa using hsortednd)
    rw [List.nil_append] at hrb
    set fo1 := updates.foldl addRowKeys (metricsFieldOrder m) with hfo1
    set ms1 := updates.foldl dictSetStep m with hms1
    set sorted1 := sortByKey (fun kv : String × Row => kv.1) ms1 with hsorted1
    set m₁ := sorted1.map (fun kv => (kv.1, headerRow fo1 kv.2)) with hm₁
    set rows1 := sorted1.map (fun kv => (headerRow fo1 kv.2).map Prod.snd) with hrows1
    clear_value rows1 m₁ sorted1 ms1 fo1
    have hc₁ : c₁ = some ⟨fo1, rows1⟩ := by
      rw [h1] at hupd
      exact Except.ok.inj hupd
    subst hc₁
    have hread₂ : read_metrics (some ⟨fo1, rows1⟩) = .ok m₁ := hrb
    -- each update pid is a key of `m₁`, with the padded update row as value
    have hlkm₁ : ∀ u ∈ updates,
        assocLookup m₁ (updPid u) = some (headerRow fo1 u) := by
      intro u hu
      rw [hm₁, assocLookup_map_pad, assocLookup_eq_of_perm hperm hsortednd, hms1,
        foldl_dictSetStep_lookup_mem hu hdist]
      rfl
    have hmemm₁ : ∀ u ∈ updates, updPid u ∈ m₁.map Prod.fst := by
      intro u hu
      exact mem_keys_of_isSome (by rw [hlkm₁ u hu]; rfl)
    -- `m₁` is nonempty and its first row has the new header's keys
    have hsorted1ne : sorted1 ≠ [] := by
      intro hnil
      have h0 := hlkm₁ u0 hu0
      rw [hm₁, hnil] at h0
      simp [assocLookup] at h0
    have hmfo₁ : metricsFieldOrder m₁ = fo1 := by
      cases hs : sorted1 with
      | nil => exact absurd hs hsorted1ne
      | cons p ps =>
        rw [hm₁, hs]
        simp only [List.map_cons, metricsFieldOrder]
        exact headerRow_map_fst
    have hfo₂ : updates.foldl addRowKeys (metricsFieldOrder m₁) = fo1 := by
      rw [hmfo₁]
      apply foldl_addRowKeys_eq_self
      intro u hu k hk
      rw [hfo1]
      exact mem_foldl_addRowKeys.2 (Or.inr ⟨u, hu, hk⟩)
    -- the second update loop
    have h2 : update_metrics (some ⟨fo1, rows1⟩) updates =
        .ok (some ⟨updates.foldl addRowKeys (metricsFieldOrder m₁),
          (sortByKey (fun kv => kv.1) (updates.foldl dictSetStep m₁)).map
            (fun kv => (headerRow (updates.foldl addRowKeys (metricsFieldOrder m₁)) kv.2).map
              Prod.snd)⟩) := by
      simp only [update_metrics, hempty, Bool.false_eq_true, if_false, hread₂,
        updateLoop_eq hpids]
    rw [hfo₂] at h2
    set ms2 := updates.foldl dictSetStep m₁ with hms2
    clear_value ms2
    -- keys of `ms2` are the (already sorted) keys of `m₁`
    have hkeys₂ : ms2.map Prod.fst = m₁.map Prod.fst := by
      rw [hms2]
      exact foldl_dictSetStep_map_fst_of_mem hmemm₁
    have hm₁keys : m₁.map Prod.fst = sorted1.map Prod.fst := by
      rw [hm₁, List.map_map]
      apply List.map_congr_left
      intro p _
      rfl
    have hsortpw : (ms2.map Prod.fst).Pairwise (· ≤ ·) := by
      rw [hkeys₂, hm₁keys, hsorted1]
      rw [List.pairwise_map]
      exact sortByKey_pairwise (fun kv : String × Row => kv.1) ms1
    have hsorted₂ : sortByKey (fun kv : String × Row => kv.1) ms2 = ms2 := by
      apply sortByKey_eq_self
      rw [List.pairwise_map] at hsortpw
      exact hsortpw
    rw [hsorted₂] at h2
    -- serializing `ms2` over `fo1` gives back exactly `rows1`
    have hrows₂ : ms2.map (fun kv => (headerRow fo1 kv.2).map Prod.snd) =
        m₁.map (fun kv => (headerRow fo1 kv.2).map Prod.snd) := by
      rw [hms2]
      apply map_foldl_dictSetStep_eq hdist
      intro u hu
      refine ⟨headerRow fo1 u, hlkm₁ u hu, ?_⟩
      show (headerRow fo1 u).map Prod.snd =
        (headerRow fo1 (headerRow fo1 u)).map Prod.snd
      rw [headerRow_headerRow]
    have hm₁rows : m₁.map (fun kv => (headerRow fo1 kv.2).map Prod.snd) = rows1 := by
      rw [hm₁, hrows1, List.map_map]
      apply List.map_congr_left
      intro p _
      show (headerRow fo1 (headerRow fo1 p.2)).map Prod.snd =
        (headerRow fo1 p.2).map Prod.snd
      rw [headerRow_headerRow]
    rw [hrows₂, hm₁rows] at h2
    exact h2

/-- Concrete instantiation of `update_metrics_idempotent`. -/
theorem update_metrics_idempotent_witness :
    update_metrics
      (some ⟨["parcel_id", "party_intensity"],
        [["1999-01-02T030405Z", "100"], ["2000-01-02T030405Z", "1"]]⟩)
      [[("parcel_id", "1999-01-02T030405Z"), ("party_intensity", "100")],
       [("parcel_id", "2000-01-02T030405Z"), ("party_intensity", "1")]] =
    .ok (some ⟨["parcel_id", "party_intensity"],
      [["1999-01-02T030405Z", "100"], ["2000-01-02T030405Z", "1"]]⟩) :=
  update_metrics_idempotent
    (show read_metrics (some initialMetricsCsv) = Except.ok [] by decide)
    (by decide) (by decide) (by decide) (by decide)

/-! ## Dataset filesystem state -/

/-- The observable filesystem contents of a dataset directory: the entry
names directly under `data/`, `incomplete/` and `log/`, plus the metrics
store (`none` = `metrics.csv` missing).  Directories always exist in the
model (`initialize`/`mkdir(exist_ok=True)` make them so). -/
structure DatasetState where
  data : List String
  incomplete : List String
  log : List String
  metrics : Option MetricsCsv
deriving DecidableEq, Repr

/-- Models `_find_parcel_data_path(parent, parcel_id)`: glob `{parcel_id}*`;
`None` when nothing matches, the unique match otherwise, and an exception
when more than one entry matches. -/
def find_parcel_data_path (entries : List String) (parcel_id : String) :
    Except String (Option String) :=
  match entries.filter (fun n => globStartsWith parcel_id n) with
  | [] => .ok none
  | [n] => .ok (some n)
  | _ => .error ("multiple data files or dirs exist for " ++ parcel_id)

/-- `ParcelAccessor.find_data`. -/
def find_data (st : DatasetState) (parcel_id : String) : Except String (Option String) :=
  find_parcel_data_path st.data parcel_id

/-- `ParcelAccessor.find_incomplete`. -/
def find_incomplete (st : DatasetState) (parcel_id : String) :
    Except String (Option String) :=
  find_parcel_data_path st.incomplete parcel_id

/-- `ParcelAccessor.find_stdout`: `log/<id>.out`, if that file exists. -/
def find_stdout (st : DatasetState) (parcel_id : String) : Option String :=
  if (parcel_id ++ ".out") ∈ st.log then some (parcel_id ++ ".out") else none

/-- `ParcelAccessor.find_stderr`: `log/<id>.err`, if that file exists. -/
def find_stderr (st : DatasetState) (parcel_id : String) : Option String :=
  if (parcel_id ++ ".err") ∈ st.log then some (parcel_id ++ ".err") else none

/-- `ParcelAccessor.is_known`, with Python's short-circuiting `or` (a later
disjunct that would raise is not reached when an earlier one is truthy). -/
def is_known (st : DatasetState) (parcel_id : String) : Except String Bool :=
  match find_data st parcel_id with
  | .error e => .error e
  | .ok (some _) => .ok true
  | .ok none =>
    match find_incomplete st parcel_id with
    | .error e => .error e
    | .ok (some _) => .ok true
    | .ok none =>
      if (find_stdout st parcel_id).isSome then .ok true
      else if (find_stderr st parcel_id).isSome then .ok true
      else
        match read_metrics st.metrics with
        | .error e => .error e
        | .ok m => .ok ((assocLookup m parcel_id).isSome)

/-- `find_parcel_ids`: stems of the entries under `data/` and `incomplete/`
(glob `*`) and of the log files containing a dot (glob `*.*`), collected as
a set, filtered by the parcel-id regex, and sorted. -/
def find_parcel_ids (st : DatasetState) : List String :=
  sortByKey (fun s => s)
    (((st.data.map stem ++ st.incomplete.map stem ++
      (st.log.filter globHasDot).map stem).dedup).filter
        (fun i => matchesParcelIdFormat i))

/-- Removes one directory entry (`unlink`/`rmtree`); entry names in a
directory are unique. -/
def removeEntry : List String → String → List String
  | [], _ => []
  | x :: xs, n => if x = n then xs else x :: removeEntry xs n

/-- The outcome of `_clean`: the state after the deletions that were
performed, the complete-data entries removed (the Python return value),
and the exception that aborted the loop, if any — deletions made before an
exception persist on disk. -/
structure CleanResult where
  state : DatasetState
  removed : List String
  err : Option String
deriving DecidableEq, Repr

/-- `out_path = parcels[0].find_stdout(); if out_path: out_path.unlink()`. -/
def removeStdoutStep (st : DatasetState) (pid : String) : DatasetState :=
  match find_stdout st pid with
  | some n => { st with log := removeEntry st.log n }
  | none => st

/-- `err_path = parcels[0].find_stderr(); if err_path: err_path.unlink()`. -/
def removeStderrStep (st : DatasetState) (pid : String) : DatasetState :=
  match find_stderr st pid with
  | some n => { st with log := removeEntry st.log n }
  | none => st

/-- `if incomplete: unlink/rmtree` (both delete the entry). -/
def removeIncompleteEntry (st : DatasetState) (inc : Option String) : DatasetState :=
  match inc with
  | some n => { st with incomplete := removeEntry st.incomplete n }
  | none => st

/-- One iteration of the `_clean` loop for the oldest parcel: delete its
stdout/stderr logs, its incomplete artifact, and its complete artifact
(returned for the commit step).  Either `find` call can raise the
ambiguity exception, after the deletions already made. -/
def removeParcel (st : DatasetState) (pid : String) :
    DatasetState × Option String × Option String :=
  let st2 := removeStderrStep (removeStdoutStep st pid) pid
  match find_incomplete st2 pid with
  | .error e => (st2, none, some e)
  | .ok inc =>
    let st3 := removeIncompleteEntry st2 inc
    match find_data st3 pid with
    | .error e => (st3, none, some e)
    | .ok none => (st3, none, none)
    | .ok (some n) => ({ st3 with data := removeEntry st3.data n }, some n, none)

/-- The `while len(parcels) > keep` loop of `_clean`.  Note the loop keeps
iterating for negative `keep`; once the list is empty, `parcels[0]` raises
`IndexError`. -/
def cleanLoop (keep : Int) : List String → DatasetState → List String → CleanResult
  | [], st, rm =>
    if ((([] : List String).length : Int) > keep) then
      ⟨st, rm, some "IndexError: list index out of range"⟩
    else ⟨st, rm, none⟩
  | pid :: rest, st, rm =>
    if (((pid :: rest).length : Int) > keep) then
      match removeParcel st pid with
      | (st', _, some e) => ⟨st', rm, some e⟩
      | (st', none, none) => cleanLoop keep rest st' rm
      | (st', some n, none) => cleanLoop keep rest st' (rm ++ [n])
    else ⟨st, rm, none⟩

/-- Models `_clean` (the artifact-level behavior of `clean()`; the public
wrapper only adds a git commit staging the removals, which touches no
dataset file).  No-op when `keep` is missing or `0` (`if not keep`);
otherwise prunes the oldest extant parcels while more than `keep` remain. -/
def clean (cfg_keep : Option Int) (st : DatasetState) : CleanResult :=
  match cfg_keep with
  | none => ⟨st, [], none⟩
  | some keep =>
    if keep = 0 then ⟨st, [], none⟩
    else cleanLoop keep (find_parcel_ids st) st []

example :
    find_parcel_ids ⟨["2000-01-02T030405Z.txt", "junk.txt"],
      ["1999-01-02T030405Z.txt"], ["2000-01-02T030405Z.out", "noext"], none⟩ =
    ["1999-01-02T030405Z", "2000-01-02T030405Z"] := by decide

example :
    clean (some 4)
      ⟨["2000-01-02T030400Z.txt", "2000-01-02T030402Z.txt", "2000-01-02T030404Z.txt",
        "2000-01-02T030406Z.txt", "2000-01-02T030408Z.txt"],
       ["2000-01-02T030401Z.txt", "2000-01-02T030403Z.txt", "2000-01-02T030405Z.txt",
        "2000-01-02T030407Z.txt", "2000-01-02T030409Z.txt"],
       ["2000-01-02T030400Z.out", "2000-01-02T030403Z.out", "2000-01-02T030406Z.out",
        "2000-01-02T030409Z.out", "2000-01-02T030400Z.err", "2000-01-02T030404Z.err",
        "2000-01-02T030408Z.err"], none⟩ =
    ⟨⟨["2000-01-02T030406Z.txt", "2000-01-02T030408Z.txt"],
      ["2000-01-02T030407Z.txt", "2000-01-02T030409Z.txt"],
      ["2000-01-02T030406Z.out", "2000-01-02T030409Z.out", "2000-01-02T030408Z.err"],
      none⟩,
     ["2000-01-02T030400Z.txt", "2000-01-02T030402Z.txt", "2000-01-02T030404Z.txt"],
     none⟩ := by decide

/-! ## Clean: C1 (keep absent/zero/negative) -/

/-- **C1 (amended).**  With `keep` absent or zero, `clean` removes nothing
and raises nothing (`if not keep: return []`). -/
theorem clean_noop_of_keep_absent_or_zero (st : DatasetState) (k : Option Int)
    (h : k = none ∨ k = some 0) : clean k st = ⟨st, [], none⟩ := by
  rcases h with rfl | rfl
  · rfl
  · simp [clean]

/-- Concrete instantiation of `clean_noop_of_keep_absent_or_zero`. -/
theorem clean_noop_of_keep_absent_or_zero_witness :
    clean (some 0) ⟨["2000-01-01T000000Z.txt"], [], [], none⟩ =
      ⟨⟨["2000-01-01T000000Z.txt"], [], [], none⟩, [], none⟩ :=
  clean_noop_of_keep_absent_or_zero _ _ (Or.inr rfl)

/-- **C1 (counterexample).**  With `keep = -1` (a negative integer),
`clean` is *not* a no-op: `if not keep` is false for `-1`, so the loop
runs, deletes the parcel's data artifact, and then dies with an
`IndexError` — the data file that existed before the call is gone. -/
theorem clean_negative_keep_removes_artifacts :
    (clean (some (-1)) ⟨["2000-01-01T000000Z.txt"], [], [], none⟩).state.data = [] ∧
    (clean (some (-1)) ⟨["2000-01-01T000000Z.txt"], [], [], none⟩).removed =
      ["2000-01-01T000000Z.txt"] ∧
    (clean (some (-1)) ⟨["2000-01-01T000000Z.txt"], [], [], none⟩).err.isSome := by
  decide

/-! ## Clean: C10 (what clean can and cannot touch) -/

/-- A name that begins with an 18-character parcel id.  Every deletion
`_clean` performs is of such a name. -/
def hasParcelIdPrefix (n : String) : Bool :=
  matchesParcelIdFormat ⟨n.data.take 18⟩

theorem format_length {s : String} (h : matchesParcelIdFormat s = true) :
    s.data.length = 18 := by
  unfold matchesParcelIdFormat at h
  split at h
  · rename_i heq
    rw [heq]
    rfl
  · simp at h

theorem take_eq_of_pref {pid n : String} (hlen : pid.data.length = 18)
    (h : pid.data.IsPrefix n.data) : n.data.take 18 = pid.data := by
  rw [← hlen]
  exact (List.prefix_iff_eq_take.1 h).symm

theorem hasParcelIdPrefix_of_glob {pid n : String}
    (hfmt : matchesParcelIdFormat pid = true) (h : globStartsWith pid n = true) :
    hasParcelIdPrefix n = true := by
  rw [globStartsWith, List.isPrefixOf_iff_prefix] at h
  rw [hasParcelIdPrefix, take_eq_of_pref (format_length hfmt) h]
  exact hfmt

theorem hasParcelIdPrefix_append {pid suffix : String}
    (hfmt : matchesParcelIdFormat pid = true) :
    hasParcelIdPrefix (pid ++ suffix) = true := by
  apply hasParcelIdPrefix_of_glob hfmt
  rw [globStartsWith, List.isPrefixOf_iff_prefix]
  exact ⟨suffix.data, (String.data_append ..).symm⟩

theorem mem_removeEntry_of_ne {l : List String} {n n0 : String}
    (hn : n ∈ l) (hne : n ≠ n0) : n ∈ removeEntry l n0 := by
  induction l with
  | nil => simp at hn
  | cons x xs ih =>
    rcases List.mem_cons.1 hn with rfl | hn
    · simp [removeEntry, hne]
    · by_cases hx : x = n0
      · simp [removeEntry, hx, hn]
      · simp [removeEntry, hx, ih hn]

theorem mem_of_mem_removeEntry {l : List String} {n n0 : String}
    (h : n ∈ removeEntry l n0) : n ∈ l := by
  induction l with
  | nil => simpa [removeEntry] using h
  | cons x xs ih =>
    by_cases hx : x = n0
    · rw [removeEntry, if_pos hx] at h
      exact List.mem_cons.2 (Or.inr h)
    · rw [removeEntry, if_neg hx] at h
      rcases List.mem_cons.1 h with rfl | h
      · simp
      · exact List.mem_cons.2 (Or.inr (ih h))

theorem removeStdoutStep_data {st : DatasetState} {pid : String} :
    (removeStdoutStep st pid).data = st.data := by
  unfold removeStdoutStep
  split <;> rfl

theorem removeStdoutStep_incomplete {st : DatasetState} {pid : String} :
    (removeStdoutStep st pid).incomplete = st.incomplete := by
  unfold removeStdoutStep
  split <;> rfl

theorem removeStdoutStep_metrics {st : DatasetState} {pid : String} :
    (removeStdoutStep st pid).metrics = st.metrics := by
  unfold removeStdoutStep
  split <;> rfl

theorem removeStderrStep_data {st : DatasetState} {pid : String} :
    (removeStderrStep st pid).data = st.data := by
  unfold removeStderrStep
  split <;> rfl

theorem removeStderrStep_incomplete {st : DatasetState} {pid : String} :
    (removeStderrStep st pid).incomplete = st.incomplete := by
  unfold removeStderrStep
  split <;> rfl

theorem removeStderrStep_metrics {st : DatasetState} {pid : String} :
    (removeStderrStep st pid).metrics = st.metrics := by
  unfold removeStderrStep
  split <;> rfl

theorem removeIncompleteEntry_data {st : DatasetState} {inc : Option String} :
    (removeIncompleteEntry st inc).data = st.data := by
  cases inc <;> rfl

theorem removeIncompleteEntry_log {st : DatasetState} {inc : Option String} :
    (removeIncompleteEntry st inc).log = st.log := by
  cases inc <;> rfl

theorem removeIncompleteEntry_metrics {st : DatasetState} {inc : Option String} :
    (removeIncompleteEntry st inc).metrics = st.metrics := by
  cases inc <;> rfl

theorem removeStdoutStep_log_mem {st : DatasetState} {pid n : String}
    (hn : n ∈ st.log) (hne : n ≠ pid ++ ".out") :
    n ∈ (removeStdoutStep st pid).log := by
  by_cases h : (pid ++ ".out") ∈ st.log
  · simpa [removeStdoutStep, find_stdout, h] using mem_removeEntry_of_ne hn hne
  · simpa [removeStdoutStep, find_stdout, h] using hn

theorem removeStderrStep_log_mem {st : DatasetState} {pid n : String}
    (hn : n ∈ st.log) (hne : n ≠ pid ++ ".err") :
    n ∈ (removeStderrStep st pid).log := by
  by_cases h : (pid ++ ".err") ∈ st.log
  · simpa [removeStderrStep, find_stderr, h] using mem_removeEntry_of_ne hn hne
  · simpa [removeStderrStep, find_stderr, h] using hn

/-- All deletions `removeParcel` makes are of names that start with the
parcel id; names without a parcel-id prefix survive in every branch. -/
theorem removeParcel_frame {st : DatasetState} {pid : String}
    (hfmt : matchesParcelIdFormat pid = true) {n : String}
    (hn : hasParcelIdPrefix n = false) :
    (n ∈ st.data → n ∈ (removeParcel st pid).1.data) ∧
    (n ∈ st.incomplete → n ∈ (removeParcel st pid).1.incomplete) ∧
    (n ∈ st.log → n ∈ (removeParcel st pid).1.log) := by
  have hne_glob : ∀ n0 : String, globStartsWith pid n0 = true → n ≠ n0 := by
    intro n0 hg he
    rw [he, hasParcelIdPrefix_of_glob hfmt hg] at hn
    cases hn
  have hout : n ≠ pid ++ ".out" := by
    intro he
    rw [he, hasParcelIdPrefix_append hfmt] at hn
    cases hn
  have herr : n ≠ pid ++ ".err" := by
    intro he
    rw [he, hasParcelIdPrefix_append hfmt] at hn
    cases hn
  have hlog2 : n ∈ st.log → n ∈ (removeStderrStep (removeStdoutStep st pid) pid).log :=
    fun h => removeStderrStep_log_mem (removeStdoutStep_log_mem h hout) herr
  have hdata2 : (removeStderrStep (removeStdoutStep st pid) pid).data = st.data := by
    rw [removeStderrStep_data, removeStdoutStep_data]
  have hinc2 : (removeStderrStep (removeStdoutStep st pid) pid).incomplete =
      st.incomplete := by
    rw [removeStderrStep_incomplete, removeStdoutStep_incomplete]
  unfold removeParcel
  cases hfind : find_incomplete (removeStderrStep (removeStdoutStep st pid) pid) pid with
  | error e =>
    simp only [hfind]
    exact ⟨fun h => hdata2 ▸ h, fun h => hinc2 ▸ h, hlog2⟩
  | ok inc =>
    simp only [hfind]
    have hinc3 : ∀ h : n ∈ st.incomplete,
        n ∈ (removeIncompleteEntry (removeStderrStep (removeStdoutStep st pid) pid)
          inc).incomplete := by
      intro h
      cases inc with
      | none => simpa [removeIncompleteEntry, hinc2] using h
      | some n0 =>
        have hg : globStartsWith pid n0 = true := by
          rw [find_incomplete, find_parcel_data_path] at hfind
          split at hfind
          · simp at hfind
          · rename_i heq
            have : n0 ∈ (removeStderrStep (removeStdoutStep st pid) pid).incomplete.filter
                (fun n => globStartsWith pid n) := by
              rw [heq]
              injection hfind with hf
              injection hf with hf2
              simp [hf2]
            exact (List.mem_filter.1 this).2
          · simp at hfind
        simp only [removeIncompleteEntry]
        exact mem_removeEntry_of_ne (hinc2 ▸ h) (hne_glob n0 hg)
    cases hfd : find_data (removeIncompleteEntry
        (removeStderrStep (removeStdoutStep st pid) pid) inc) pid with
    | error e =>
      simp only [hfd]
      refine ⟨fun h => ?_, hinc3, fun h => ?_⟩
      · rw [removeIncompleteEntry_data, hdata2]
        exact h
      · rw [removeIncompleteEntry_log]
        exact hlog2 h
    | ok dopt =>
      try simp only [hfd]
      cases dopt with
      | none =>
        refine ⟨fun h => ?_, hinc3, fun h => ?_⟩
        · rw [removeIncompleteEntry_data, hdata2]
          exact h
        · rw [removeIncompleteEntry_log]
          exact hlog2 h
      | some n0 =>
        have hg : globStartsWith pid n0 = true := by
          rw [find_data, find_parcel_data_path] at hfd
          split at hfd
          · simp at hfd
          · rename_i heq
            have : n0 ∈ (removeIncompleteEntry
                (removeStderrStep (removeStdoutStep st pid) pid) inc).data.filter
                  (fun n => globStartsWith pid n) := by
              rw [heq]
              injection hfd with hf
              injection hf with hf2
              simp [hf2]
            exact (List.mem_filter.1 this).2
          · simp at hfd
        refine ⟨fun h => ?_, hinc3, fun h => ?_⟩
        · show n ∈ removeEntry _ n0
          apply mem_removeEntry_of_ne _ (hne_glob n0 hg)
          rw [removeIncompleteEntry_data, hdata2]
          exact h
        · show n ∈ (removeIncompleteEntry _ inc).log
          rw [removeIncompleteEntry_log]
          exact hlog2 h

theorem find_parcel_ids_format {st : DatasetState} :
    ∀ id ∈ find_parcel_ids st, matchesParcelIdFormat id = true := by
  intro id hid
  have hmem := (sortByKey_perm (fun s : String => s) _).mem_iff.1 hid
  exact (List.mem_filter.1 hmem).2

theorem cleanLoop_frame {keep : Int} : ∀ {parcels : List String} {st : DatasetState}
    {rm : List String},
    (∀ pid ∈ parcels, matchesParcelIdFormat pid = true) →
    ∀ {n : String}, hasParcelIdPrefix n = false →
      (n ∈ st.data → n ∈ (cleanLoop keep parcels st rm).state.data) ∧
      (n ∈ st.incomplete → n ∈ (cleanLoop keep parcels st rm).state.incomplete) ∧
      (n ∈ st.log → n ∈ (cleanLoop keep parcels st rm).state.log) := by
  intro parcels
  induction parcels with
  | nil =>
    intro st rm _ n hn
    unfold cleanLoop
    split
    · exact ⟨id, id, id⟩
    · exact ⟨id, id, id⟩
  | cons pid rest ih =>
    intro st rm hfmt n hn
    have hf := @removeParcel_frame st pid (hfmt pid (by simp)) n hn
    unfold cleanLoop
    split
    · rcases hrp : removeParcel st pid with ⟨st', ropt, eopt⟩
      rw [hrp] at hf
      cases eopt with
      | some e =>
        cases ropt <;> exact hf
      | none =>
        cases ropt with
        | none =>
          have := @ih st' rm (fun q hq => hfmt q (by simp [hq])) n hn
          exact ⟨fun h => this.1 (hf.1 h), fun h => this.2.1 (hf.2.1 h),
            fun h => this.2.2 (hf.2.2 h)⟩
        | some n0 =>
          have := @ih st' (rm ++ [n0]) (fun q hq => hfmt q (by simp [hq])) n hn
          exact ⟨fun h => this.1 (hf.1 h), fun h => this.2.1 (hf.2.1 h),
            fun h => this.2.2 (hf.2.2 h)⟩
    · exact ⟨id, id, id⟩

/-- **C10 (amended).**  Parcel enumeration only yields names matching the
parcel-id pattern, and `clean` (for any `keep`) leaves untouched every
file under `data/`, `incomplete/` or `log/` whose *name* does not begin
with a pattern-matching parcel id.  (The original claim's "stem" version
is refuted by `clean_deletes_file_with_nonmatching_stem`: glob `{id}*`
also matches double-extension files whose stem does not match.) -/
theorem clean_touches_only_parcel_prefixed_names (k : Option Int) (st : DatasetState) :
    (∀ id ∈ find_parcel_ids st, matchesParcelIdFormat id = true) ∧
    ∀ n, hasParcelIdPrefix n = false →
      (n ∈ st.data → n ∈ (clean k st).state.data) ∧
      (n ∈ st.incomplete → n ∈ (clean k st).state.incomplete) ∧
      (n ∈ st.log → n ∈ (clean k st).state.log) := by
  refine ⟨find_parcel_ids_format, ?_⟩
  intro n hn
  unfold clean
  cases k with
  | none => exact ⟨id, id, id⟩
  | some keep =>
    by_cases hk : keep = 0
    · simp only [hk, if_pos rfl]
      exact ⟨id, id, id⟩
    · simp only [if_neg hk]
      exact cleanLoop_frame find_parcel_ids_format hn

/-- Concrete instantiation of `clean_touches_only_parcel_prefixed_names`. -/
theorem clean_touches_only_parcel_prefixed_names_witness :
    "notaparcel.txt" ∈
      (clean (some 1) ⟨["2000-01-01T000000Z.txt", "2000-01-02T000000Z.txt",
        "notaparcel.txt"], [], [], none⟩).state.data :=
  ((clean_touches_only_parcel_prefixed_names (some 1)
      ⟨["2000-01-01T000000Z.txt", "2000-01-02T000000Z.txt", "notaparcel.txt"],
        [], [], none⟩).2 "notaparcel.txt" (by decide)).1 (by decide)

/-- **C10 (counterexample).**  A data file `2000-01-01T000000Z.tar.gz`
whose *stem* (`2000-01-01T000000Z.tar`) does not match the parcel-id
pattern is nevertheless deleted by `clean` (its parcel is known through
the log file, and the glob `2000-01-01T000000Z*` matches it). -/
theorem clean_deletes_file_with_nonmatching_stem :
    matchesParcelIdFormat (stem "2000-01-01T000000Z.tar.gz") = false ∧
    "2000-01-01T000000Z.tar.gz" ∈
      (⟨["2000-01-01T000000Z.tar.gz", "2000-01-02T000000Z.txt"], [],
        ["2000-01-01T000000Z.out"], none⟩ : DatasetState).data ∧
    (clean (some 1) ⟨["2000-01-01T000000Z.tar.gz", "2000-01-02T000000Z.txt"], [],
      ["2000-01-01T000000Z.out"], none⟩).state.data = ["2000-01-02T000000Z.txt"] ∧
    (clean (some 1) ⟨["2000-01-01T000000Z.tar.gz", "2000-01-02T000000Z.txt"], [],
      ["2000-01-01T000000Z.out"], none⟩).err = none := by
  decide

/-! ## Clean: C4 (retention characterization) -/

theorem mem_find_parcel_ids {st : DatasetState} {q : String} :
    q ∈ find_parcel_ids st ↔ matchesParcelIdFormat q = true ∧
      (q ∈ st.data.map stem ∨ q ∈ st.incomplete.map stem ∨
       q ∈ (st.log.filter globHasDot).map stem) := by
  unfold find_parcel_ids
  rw [(sortByKey_perm _ _).mem_iff, List.mem_filter, List.mem_dedup]
  simp only [List.mem_append]
  tauto

theorem find_parcel_ids_sorted (st : DatasetState) :
    (find_parcel_ids st).Pairwise (· ≤ ·) :=
  sortByKey_pairwise (fun s => s) _

theorem find_parcel_ids_nodup (st : DatasetState) :
    (find_parcel_ids st).Nodup :=
  ((sortByKey_perm _ _).nodup_iff).2
    (List.Nodup.filter _ (List.nodup_dedup _))

theorem eq_of_sorted_nodup_same_mem : ∀ {l₁ l₂ : List String},
    l₁.Pairwise (· ≤ ·) → l₂.Pairwise (· ≤ ·) →
    l₁.Nodup → l₂.Nodup → (∀ x, x ∈ l₁ ↔ x ∈ l₂) → l₁ = l₂ := by
  intro l₁
  induction l₁ with
  | nil =>
    intro l₂ _ _ _ _ hmem
    cases l₂ with
    | nil => rfl
    | cons b bs => exact absurd ((hmem b).2 (by simp)) (by simp)
  | cons a as ih =>
    intro l₂ hs₁ hs₂ hnd₁ hnd₂ hmem
    cases l₂ with
    | nil => exact absurd ((hmem a).1 (by simp)) (by simp)
    | cons b bs =>
      rw [List.pairwise_cons] at hs₁ hs₂
      rw [List.nodup_cons] at hnd₁ hnd₂
      have hab : a = b := by
        rcases List.mem_cons.1 ((hmem a).1 (by simp)) with h | h
        · exact h
        · rcases List.mem_cons.1 ((hmem b).2 (by simp)) with h' | h'
          · exact h'.symm
          · exact le_antisymm (hs₁.1 b h') (hs₂.1 a h)
      subst hab
      have : as = bs := by
        apply ih hs₁.2 hs₂.2 hnd₁.2 hnd₂.2
        intro x
        constructor
        · intro hx
          rcases List.mem_cons.1 ((hmem x).1 (by simp [hx])) with rfl | h
          · exact absurd hx hnd₁.1
          · exact h
        · intro hx
          rcases List.mem_cons.1 ((hmem x).2 (by simp [hx])) with rfl | h
          · exact absurd hx hnd₂.1
          · exact h
      rw [this]

theorem mem_removeEntry_iff {l : List String} (hnd : l.Nodup) {n n0 : String} :
    n ∈ removeEntry l n0 ↔ n ∈ l ∧ n ≠ n0 := by
  induction l with
  | nil => simp [removeEntry]
  | cons x xs ih =>
    rw [List.nodup_cons] at hnd
    by_cases hx : x = n0
    · subst hx
      rw [removeEntry, if_pos rfl]
      constructor
      · intro h
        exact ⟨by simp [h], fun he => hnd.1 (he ▸ h)⟩
      · intro ⟨h, hne⟩
        rcases List.mem_cons.1 h with rfl | h
        · exact absurd rfl hne
        · exact h
    · rw [removeEntry, if_neg hx]
      constructor
      · intro h
        rcases List.mem_cons.1 h with rfl | h
        · exact ⟨by simp, fun he => hx he⟩
        · have := (ih hnd.2).1 h
          exact ⟨by simp [this.1], this.2⟩
      · intro ⟨h, hne⟩
        rcases List.mem_cons.1 h with rfl | h
        · simp
        · exact List.mem_cons.2 (Or.inr ((ih hnd.2).2 ⟨h, hne⟩))

theorem removeEntry_sublist (l : List String) (n : String) :
    (removeEntry l n).Sublist l := by
  induction l with
  | nil => simp [removeEntry]
  | cons x xs ih =>
    by_cases hx : x = n
    · rw [removeEntry, if_pos hx]
      exact List.sublist_cons_self x xs
    · rw [removeEntry, if_neg hx]
      exact ih.cons₂ x

theorem stem_data_pref (n : String) : (stem n).data.IsPrefix n.data := by
  show (stemChars n.data).IsPrefix n.data
  unfold stemChars
  split
  · split
    · exact List.take_prefix _ _
    · exact List.prefix_refl _
  · exact List.prefix_refl _

/-- Two format-matching parcel ids that are both realized inside the same
name (one as the stem, one as a glob prefix) must be equal. -/
theorem stem_eq_of_glob {q pid n : String}
    (hq : matchesParcelIdFormat q = true) (hstem : stem n = q)
    (hpid : matchesParcelIdFormat pid = true)
    (hglob : globStartsWith pid n = true) : q = pid := by
  rw [globStartsWith, List.isPrefixOf_iff_prefix] at hglob
  have h1 : n.data.take 18 = pid.data := take_eq_of_pref (format_length hpid) hglob
  have h2 : n.data.take 18 = q.data := by
    apply take_eq_of_pref (format_length hq)
    rw [← hstem]
    exact stem_data_pref n
  have : q.data = pid.data := h2 ▸ h1
  calc q = ⟨q.data⟩ := rfl
    _ = ⟨pid.data⟩ := by rw [this]
    _ = pid := rfl

theorem glob_of_stem_eq {q n : String} (hq : matchesParcelIdFormat q = true)
    (hstem : stem n = q) : globStartsWith q n = true := by
  rw [globStartsWith, List.isPrefixOf_iff_prefix, ← hstem]
  exact stem_data_pref n

theorem glob_append (pid s : String) : globStartsWith pid (pid ++ s) = true := by
  rw [globStartsWith, List.isPrefixOf_iff_prefix]
  exact ⟨s.data, (String.data_append ..).symm⟩

/-- Well-formedness of a dataset directory as the program maintains it:
entry names in each directory are unique; a log file whose stem is a
parcel id is one of the `<id>.out`/`<id>.err` files the exporter creates;
and for each enumerated parcel id at most one `data/` entry and at most
one `incomplete/` entry start with that id (otherwise `_clean` raises the
ambiguity error). -/
def StateWF (st : DatasetState) : Prop :=
  st.data.Nodup ∧ st.incomplete.Nodup ∧ st.log.Nodup ∧
  (∀ n ∈ st.log, matchesParcelIdFormat (stem n) = true →
    n = stem n ++ ".out" ∨ n = stem n ++ ".err") ∧
  (∀ pid ∈ find_parcel_ids st,
    (st.data.filter (fun n => globStartsWith pid n)).length ≤ 1 ∧
    (st.incomplete.filter (fun n => globStartsWith pid n)).length ≤ 1)

instance (st : DatasetState) : Decidable (StateWF st) := by
  unfold StateWF
  infer_instance

theorem find_parcel_data_path_cases {entries : List String} {pid : String}
    (h : (entries.filter (fun n => globStartsWith pid n)).length ≤ 1) :
    (find_parcel_data_path entries pid = .ok none ∧
      ∀ n ∈ entries, globStartsWith pid n = false) ∨
    (∃ n0, find_parcel_data_path entries pid = .ok (some n0) ∧ n0 ∈ entries ∧
      globStartsWith pid n0 = true ∧
      ∀ n ∈ entries, globStartsWith pid n = true → n = n0) := by
  cases hf : entries.filter (fun n => globStartsWith pid n) with
  | nil =>
    left
    constructor
    · simp only [find_parcel_data_path, hf]
    · intro n hn
      cases hg : globStartsWith pid n
      · rfl
      · have : n ∈ entries.filter (fun n => globStartsWith pid n) :=
          List.mem_filter.2 ⟨hn, hg⟩
        rw [hf] at this
        simp at this
  | cons n0 tl =>
    cases tl with
    | nil =>
      right
      refine ⟨n0, ?_, ?_, ?_, ?_⟩
      · simp only [find_parcel_data_path, hf]
      · have : n0 ∈ entries.filter (fun n => globStartsWith pid n) := by
          rw [hf]; exact List.mem_cons_self _ _
        exact (List.mem_filter.1 this).1
      · have : n0 ∈ entries.filter (fun n => globStartsWith pid n) := by
          rw [hf]; exact List.mem_cons_self _ _
        exact (List.mem_filter.1 this).2
      · intro n hn hg
        have : n ∈ entries.filter (fun n => globStartsWith pid n) :=
          List.mem_filter.2 ⟨hn, hg⟩
        rw [hf] at this
        simpa using this
    | cons n1 tl' =>
      exfalso
      rw [hf, List.length_cons, List.length_cons] at h
      omega

theorem removeStdoutStep_log_eq {st : DatasetState} {pid : String} :
    (removeStdoutStep st pid).log =
      if (pid ++ ".out") ∈ st.log then removeEntry st.log (pid ++ ".out")
      else st.log := by
  by_cases h : (pid ++ ".out") ∈ st.log
  · simp [removeStdoutStep, find_stdout, h]
  · simp [removeStdoutStep, find_stdout, h]

theorem removeStderrStep_log_eq {st : DatasetState} {pid : String} :
    (removeStderrStep st pid).log =
      if (pid ++ ".err") ∈ st.log then removeEntry st.log (pid ++ ".err")
      else st.log := by
  by_cases h : (pid ++ ".err") ∈ st.log
  · simp [removeStderrStep, find_stderr, h]
  · simp [removeStderrStep, find_stderr, h]

theorem condRemove_mem_iff {l : List String} (hnd : l.Nodup) {e n : String} :
    (n ∈ if e ∈ l then removeEntry l e else l) ↔ n ∈ l ∧ n ≠ e := by
  split
  · exact mem_removeEntry_iff hnd
  · rename_i he
    constructor
    · intro h
      exact ⟨h, fun hne => he (hne ▸ h)⟩
    · exact And.left

theorem removeSteps_log_sublist (st : DatasetState) (pid : String) :
    (removeStderrStep (removeStdoutStep st pid) pid).log.Sublist st.log := by
  have h1 : (removeStdoutStep st pid).log.Sublist st.log := by
    rw [removeStdoutStep_log_eq]
    split
    · exact removeEntry_sublist _ _
    · exact List.Sublist.refl _
  have h2 : (removeStderrStep (removeStdoutStep st pid) pid).log.Sublist
      (removeStdoutStep st pid).log := by
    rw [removeStderrStep_log_eq]
    split
    · exact removeEntry_sublist _ _
    · exact List.Sublist.refl _
  exact h2.trans h1

theorem removeSteps_log_iff {st : DatasetState} {pid : String}
    (hnd : st.log.Nodup) {n : String} :
    n ∈ (removeStderrStep (removeStdoutStep st pid) pid).log ↔
      n ∈ st.log ∧ n ≠ pid ++ ".out" ∧ n ≠ pid ++ ".err" := by
  have hnd1 : (removeStdoutStep st pid).log.Nodup := by
    rw [removeStdoutStep_log_eq]
    split
    · exact List.Nodup.sublist (removeEntry_sublist _ _) hnd
    · exact hnd
  rw [removeStderrStep_log_eq, condRemove_mem_iff hnd1, removeStdoutStep_log_eq,
    condRemove_mem_iff hnd]
  tauto

/-- Effect of one `_clean` iteration on the oldest enumerated parcel of a
well-formed state: it cannot raise, it leaves the metrics store untouched,
it preserves well-formedness, and afterwards exactly the remaining ids are
enumerated. -/
theorem removeParcel_spec {st : DatasetState} {pid : String} {rest : List String}
    (hwf : StateWF st) (hids : find_parcel_ids st = pid :: rest) :
    ∃ st' ropt, removeParcel st pid = (st', ropt, none) ∧
      find_parcel_ids st' = rest ∧ StateWF st' ∧ st'.metrics = st.metrics := by
  obtain ⟨hndD, hndI, hndL, hlog, hamb⟩ := hwf
  have hpid_mem : pid ∈ find_parcel_ids st := by
    rw [hids]; exact List.mem_cons_self _ _
  have hfmt : matchesParcelIdFormat pid = true := find_parcel_ids_format pid hpid_mem
  obtain ⟨hambD, hambI⟩ := hamb pid hpid_mem
  set st2 := removeStderrStep (removeStdoutStep st pid) pid with hst2
  have hd2 : st2.data = st.data := by
    rw [hst2, removeStderrStep_data, removeStdoutStep_data]
  have hi2 : st2.incomplete = st.incomplete := by
    rw [hst2, removeStderrStep_incomplete, removeStdoutStep_incomplete]
  have hm2 : st2.metrics = st.metrics := by
    rw [hst2, removeStderrStep_metrics, removeStdoutStep_metrics]
  have hlsub2 : st2.log.Sublist st.log := by
    rw [hst2]; exact removeSteps_log_sublist st pid
  have hndL2 : st2.log.Nodup := List.Nodup.sublist hlsub2 hndL
  have hlmem2 : ∀ {n : String}, n ∈ st2.log ↔
      n ∈ st.log ∧ n ≠ pid ++ ".out" ∧ n ≠ pid ++ ".err" := by
    intro n
    rw [hst2]
    exact removeSteps_log_iff hndL
  have hambI2 : (st2.incomplete.filter (fun n => globStartsWith pid n)).length ≤ 1 := by
    rw [hi2]; exact hambI
  obtain ⟨inc, hfI, hIsub, hInomatch, hIkeep⟩ :
      ∃ inc, find_incomplete st2 pid = Except.ok inc ∧
        (removeIncompleteEntry st2 inc).incomplete.Sublist st.incomplete ∧
        (∀ n ∈ (removeIncompleteEntry st2 inc).incomplete,
          globStartsWith pid n = false) ∧
        (∀ n ∈ st.incomplete, globStartsWith pid n = false →
          n ∈ (removeIncompleteEntry st2 inc).incomplete) := by
    rcases find_parcel_data_path_cases hambI2 with
      ⟨hfind, hnone⟩ | ⟨n0, hfind, hmem0, hg0, huniq⟩
    · refine ⟨none, hfind, ?_, ?_, ?_⟩
      · show st2.incomplete.Sublist st.incomplete
        rw [hi2]
      · intro n hn
        exact hnone n hn
      · intro n hn _
        show n ∈ st2.incomplete
        rw [hi2]
        exact hn
    · refine ⟨some n0, hfind, ?_, ?_, ?_⟩
      · show (removeEntry st2.incomplete n0).Sublist st.incomplete
        rw [hi2]
        exact removeEntry_sublist _ _
      · intro n hn
        have hn' : n ∈ removeEntry st.incomplete n0 := by rw [← hi2]; exact hn
        obtain ⟨hmem, hne⟩ := (mem_removeEntry_iff hndI).1 hn'
        cases hg : globStartsWith pid n
        · rfl
        · exact absurd (huniq n (by rw [hi2]; exact hmem) hg) hne
      · intro n hn hgf
        show n ∈ removeEntry st2.incomplete n0
        rw [hi2]
        apply mem_removeEntry_of_ne hn
        intro he
        rw [he, hg0] at hgf
        simp at hgf
  set st3 := removeIncompleteEntry st2 inc with hst3
  have hd3 : st3.data = st.data := by rw [hst3, removeIncompleteEntry_data, hd2]
  have hl3 : st3.log = st2.log := by rw [hst3, removeIncompleteEntry_log]
  have hm3 : st3.metrics = st.metrics := by rw [hst3, removeIncompleteEntry_metrics, hm2]
  have hndI3 : st3.incomplete.Nodup := List.Nodup.sublist hIsub hndI
  have hambD3 : (st3.data.filter (fun n => globStartsWith pid n)).length ≤ 1 := by
    rw [hd3]; exact hambD
  have hndD3 : st3.data.Nodup := by rw [hd3]; exact hndD
  obtain ⟨st4, ropt, hrp, hI4, hl4, hm4, hDsub, hndD4, hDnomatch, hDkeep⟩ :
      ∃ st4 ropt, removeParcel st pid = (st4, ropt, (none : Option String)) ∧
        st4.incomplete = st3.incomplete ∧ st4.log = st2.log ∧
        st4.metrics = st.metrics ∧
        st4.data.Sublist st.data ∧ st4.data.Nodup ∧
        (∀ n ∈ st4.data, globStartsWith pid n = false) ∧
        (∀ n ∈ st.data, globStartsWith pid n = false → n ∈ st4.data) := by
    rcases find_parcel_data_path_cases hambD3 with
      ⟨hfind, hnone⟩ | ⟨n1, hfind, hmem1, hg1, huniq⟩
    · refine ⟨st3, none, ?_, rfl, hl3, hm3, ?_, hndD3, ?_, ?_⟩
      · unfold removeParcel
        rw [← hst2]
        simp only [hfI]
        rw [← hst3]
        simp only [show find_data st3 pid = Except.ok none from hfind]
      · rw [hd3]
      · intro n hn
        exact hnone n hn
      · intro n hn _
        show n ∈ st3.data
        rw [hd3]
        exact hn
    · refine ⟨{ st3 with data := removeEntry st3.data n1 }, some n1, ?_, rfl, hl3, hm3,
        ?_, ?_, ?_, ?_⟩
      · unfold removeParcel
        rw [← hst2]
        simp only [hfI]
        rw [← hst3]
        simp only [show find_data st3 pid = Except.ok (some n1) from hfind]
      · show (removeEntry st3.data n1).Sublist st.data
        rw [hd3]
        exact removeEntry_sublist _ _
      · exact List.Nodup.sublist (removeEntry_sublist _ _) hndD3
      · intro n hn
        obtain ⟨hmem, hne⟩ := (mem_removeEntry_iff hndD3).1 hn
        cases hg : globStartsWith pid n
        · rfl
        · exact absurd (huniq n hmem hg) hne
      · intro n hn hgf
        show n ∈ removeEntry st3.data n1
        apply mem_removeEntry_of_ne (by rw [hd3]; exact hn)
        intro he
        rw [he, hg1] at hgf
        simp at hgf
  have hmem4 : ∀ q, q ∈ find_parcel_ids st4 ↔ q ∈ find_parcel_ids st ∧ q ≠ pid := by
    intro q
    rw [mem_find_parcel_ids, mem_find_parcel_ids]
    constructor
    · rintro ⟨hq, hw⟩
      have hqne : q ≠ pid := by
        intro he
        subst he
        rcases hw with h | h | h
        · obtain ⟨n, hn, hs⟩ := List.mem_map.1 h
          have hg := glob_of_stem_eq hq hs
          rw [hDnomatch n hn] at hg
          simp at hg
        · obtain ⟨n, hn, hs⟩ := List.mem_map.1 h
          have hg := glob_of_stem_eq hq hs
          rw [hInomatch n (by rw [← hI4]; exact hn)] at hg
          simp at hg
        · obtain ⟨n, hnf, hs⟩ := List.mem_map.1 h
          have hn : n ∈ st2.log := by
            rw [← hl4]
            exact (List.mem_filter.1 hnf).1
          obtain ⟨hnst, hno, hne⟩ := hlmem2.1 hn
          rcases hlog n hnst (by rw [hs]; exact hq) with h' | h'
          · rw [hs] at h'
            exact hno h'
          · rw [hs] at h'
            exact hne h'
      refine ⟨⟨hq, ?_⟩, hqne⟩
      rcases hw with h | h | h
      · left
        obtain ⟨n, hn, hs⟩ := List.mem_map.1 h
        exact List.mem_map.2 ⟨n, hDsub.subset hn, hs⟩
      · right; left
        obtain ⟨n, hn, hs⟩ := List.mem_map.1 h
        refine List.mem_map.2 ⟨n, hIsub.subset ?_, hs⟩
        rw [← hI4]
        exact hn
      · right; right
        obtain ⟨n, hnf, hs⟩ := List.mem_map.1 h
        obtain ⟨hn, hdot⟩ := List.mem_filter.1 hnf
        refine List.mem_map.2 ⟨n, List.mem_filter.2 ⟨?_, hdot⟩, hs⟩
        apply hlsub2.subset
        rw [← hl4]
        exact hn
    · rintro ⟨⟨hq, hw⟩, hqne⟩
      refine ⟨hq, ?_⟩
      rcases hw with h | h | h
      · left
        obtain ⟨n, hn, hs⟩ := List.mem_map.1 h
        have hgf : globStartsWith pid n = false := by
          cases hg : globStartsWith pid n
          · rfl
          · exact absurd (stem_eq_of_glob hq hs hfmt hg) hqne
        exact List.mem_map.2 ⟨n, hDkeep n hn hgf, hs⟩
      · right; left
        obtain ⟨n, hn, hs⟩ := List.mem_map.1 h
        have hgf : globStartsWith pid n = false := by
          cases hg : globStartsWith pid n
          · rfl
          · exact absurd (stem_eq_of_glob hq hs hfmt hg) hqne
        refine List.mem_map.2 ⟨n, ?_, hs⟩
        rw [hI4]
        exact hIkeep n hn hgf
      · right; right
        obtain ⟨n, hnf, hs⟩ := List.mem_map.1 h
        obtain ⟨hn, hdot⟩ := List.mem_filter.1 hnf
        have hno : n ≠ pid ++ ".out" := by
          intro he
          exact hqne (stem_eq_of_glob hq hs hfmt (by rw [he]; exact glob_append pid ".out"))
        have hne : n ≠ pid ++ ".err" := by
          intro he
          exact hqne (stem_eq_of_glob hq hs hfmt (by rw [he]; exact glob_append pid ".err"))
        refine List.mem_map.2 ⟨n, List.mem_filter.2 ⟨?_, hdot⟩, hs⟩
        rw [hl4]
        exact hlmem2.2 ⟨hn, hno, hne⟩
  have hsorted := find_parcel_ids_sorted st
  rw [hids] at hsorted
  have hnodup := find_parcel_ids_nodup st
  rw [hids] at hnodup
  have hrest_sorted : rest.Pairwise (· ≤ ·) := (List.pairwise_cons.1 hsorted).2
  have hrest_nodup : rest.Nodup := (List.nodup_cons.1 hnodup).2
  have hpid_not : pid ∉ rest := (List.nodup_cons.1 hnodup).1
  have hids4 : find_parcel_ids st4 = rest := by
    apply eq_of_sorted_nodup_same_mem (find_parcel_ids_sorted st4) hrest_sorted
      (find_parcel_ids_nodup st4) hrest_nodup
    intro x
    rw [hmem4 x, hids]
    constructor
    · rintro ⟨hx, hxne⟩
      rcases List.mem_cons.1 hx with rfl | hx
      · exact absurd rfl hxne
      · exact hx
    · intro hx
      exact ⟨List.mem_cons.2 (Or.inr hx), fun he => hpid_not (he ▸ hx)⟩
  refine ⟨st4, ropt, hrp, hids4, ⟨hndD4, ?_, ?_, ?_, ?_⟩, hm4⟩
  · rw [hI4]
    exact hndI3
  · rw [hl4]
    exact hndL2
  · intro n hn hfn
    apply hlog n _ hfn
    apply hlsub2.subset
    rw [← hl4]
    exact hn
  · intro pid' hp'
    rw [hids4] at hp'
    have hp'st : pid' ∈ find_parcel_ids st := by
      rw [hids]
      exact List.mem_cons.2 (Or.inr hp')
    obtain ⟨h1, h2⟩ := hamb pid' hp'st
    have hsubI4 : st4.incomplete.Sublist st.incomplete := by
      rw [hI4]
      exact hIsub
    constructor
    · exact le_trans (List.Sublist.length_le (List.Sublist.filter _ hDsub)) h1
    · exact le_trans (List.Sublist.length_le (List.Sublist.filter _ hsubI4)) h2

/-- The `while len(parcels) > keep` loop of `_clean`, run on the enumerated
ids of a well-formed state with positive `keep`: it never raises, never
touches the metrics store, and afterwards exactly the newest ids (the
length-`keep` suffix of the sorted enumeration) remain. -/
theorem cleanLoop_spec {keep : Int} (hk : 1 ≤ keep) :
    ∀ {parcels : List String} {st : DatasetState} {rm : List String},
      find_parcel_ids st = parcels → StateWF st →
      (cleanLoop keep parcels st rm).err = none ∧
      find_parcel_ids (cleanLoop keep parcels st rm).state =
        parcels.drop (parcels.length - keep.toNat) ∧
      (cleanLoop keep parcels st rm).state.metrics = st.metrics := by
  intro parcels
  induction parcels with
  | nil =>
    intro st rm hids _
    have hcl : cleanLoop keep [] st rm = ⟨st, rm, none⟩ := by
      unfold cleanLoop
      rw [if_neg (by simp only [List.length_nil]; omega)]
    refine ⟨by rw [hcl], ?_, by rw [hcl]⟩
    rw [hcl, List.drop_nil]
    exact hids
  | cons pid rest ih =>
    intro st rm hids hwf
    by_cases hcond : (((pid :: rest).length : Int) > keep)
    · obtain ⟨st', ropt, hrp, hids', hwf', hm'⟩ := removeParcel_spec hwf hids
      obtain ⟨rm', hcl⟩ : ∃ rm', cleanLoop keep (pid :: rest) st rm =
          cleanLoop keep rest st' rm' := by
        cases ropt with
        | none =>
          refine ⟨rm, ?_⟩
          conv_lhs => unfold cleanLoop
          rw [if_pos hcond, hrp]
        | some n =>
          refine ⟨rm ++ [n], ?_⟩
          conv_lhs => unfold cleanLoop
          rw [if_pos hcond, hrp]
      have hlen : (pid :: rest).length - keep.toNat = (rest.length - keep.toNat) + 1 := by
        rw [List.length_cons] at hcond ⊢
        omega
      obtain ⟨herr, hdrop, hmet⟩ := @ih st' rm' hids' hwf'
      refine ⟨?_, ?_, ?_⟩
      · rw [hcl]
        exact herr
      · rw [hcl, hlen, List.drop_succ_cons]
        exact hdrop
      · rw [hcl]
        exact hmet.trans hm'
    · have hcl : cleanLoop keep (pid :: rest) st rm = ⟨st, rm, none⟩ := by
        unfold cleanLoop
        rw [if_neg hcond]
      have hlen0 : (pid :: rest).length - keep.toNat = 0 := by
        rw [List.length_cons] at hcond ⊢
        omega
      refine ⟨by rw [hcl], ?_, by rw [hcl]⟩
      rw [hcl, hlen0, List.drop_zero]
      exact hids

/-- Creating a file or directory entry (`open(..., 'w')`, `rename` into a
directory): directory entry names are unique, so an existing name is
truncated/overwritten in place. -/
def addEntry (l : List String) (n : String) : List String :=
  if n ∈ l then l else l ++ [n]

theorem find_none_filter_nil {entries : List String} {pid : String}
    (h : find_parcel_data_path entries pid = .ok none) :
    entries.filter (fun n => globStartsWith pid n) = [] := by
  unfold find_parcel_data_path at h
  split at h
  · rename_i heq
    exact heq
  · simp at h
  · simp at h

theorem find_some_mem {entries : List String} {pid n : String}
    (h : find_parcel_data_path entries pid = .ok (some n)) :
    n ∈ entries ∧ globStartsWith pid n = true := by
  unfold find_parcel_data_path at h
  split at h
  · simp at h
  · rename_i n0 heq
    have hn0 : n0 = n := by
      injection h with h'
      injection h'
    subst hn0
    have : n0 ∈ entries.filter (fun m => globStartsWith pid m) := by
      rw [heq]
      exact List.mem_cons_self _ _
    exact ⟨(List.mem_filter.1 this).1, (List.mem_filter.1 this).2⟩
  · simp at h

/-- Models `_run_export`: the parcel-exists guard comes first; `if not cmd`
returns `None` without touching anything; otherwise the `<id>.out`/`<id>.err`
log files are opened (created), the shell command runs — `exitCode` and the
entries it deposits under `incomplete/` (`produced`) are oracle inputs —,
a nonzero exit raises `CalledProcessError`, a missing product raises, and
otherwise the unique `incomplete/` match is renamed into `data/`.
Mutations made before an exception persist. -/
def run_export (cmd : Option String) (exitCode : Int) (produced : List String)
    (st : DatasetState) (pid : String) : DatasetState × Except String (Option String) :=
  match is_known st pid with
  | .error e => (st, .error e)
  | .ok true => (st, .error ("ParcelExistsException: " ++ pid))
  | .ok false =>
    match cmd with
    | none => (st, .ok none)
    | some c =>
      if c = "" then (st, .ok none)
      else
        let stA := { st with
          log := addEntry (addEntry st.log (pid ++ ".out")) (pid ++ ".err") }
        let stB := { stA with incomplete := produced.foldl addEntry stA.incomplete }
        if exitCode ≠ 0 then (stB, .error "CalledProcessError")
        else
          match find_incomplete stB pid with
          | .error e => (stB, .error e)
          | .ok none => (stB, .error ("export did not produce data in incomplete/" ++ pid))
          | .ok (some n) =>
            ({ stB with incomplete := removeEntry stB.incomplete n,
                        data := addEntry stB.data n }, .ok (some pid))

/-- **C8.**  After a `_run_export` call that produced a parcel, calling it
again with the same id hits the `is_known` guard first and raises
`ParcelExistsException` — before any mutation, whatever command, exit code
or products the second run would have had: the state comes back exactly as
the first call left it. -/
theorem run_export_second_call_parcel_exists
    {cmd : Option String} {exitCode : Int} {produced : List String}
    {st st1 : DatasetState} {pid : String}
    (h1 : run_export cmd exitCode produced st pid = (st1, .ok (some pid))) :
    ∀ (cmd2 : Option String) (exitCode2 : Int) (produced2 : List String),
      run_export cmd2 exitCode2 produced2 st1 pid =
        (st1, .error ("ParcelExistsException: " ++ pid)) := by
  unfold run_export at h1
  split at h1
  · simp at h1
  · simp at h1
  · rename_i hknown
    split at h1
    · simp at h1
    · rename_i c
      split at h1
      · simp at h1
      · split at h1
        · simp at h1
        · simp only [] at h1
          split at h1
          · simp at h1
          · simp at h1
          · rename_i n hfinc
            rw [Prod.mk.injEq] at h1
            obtain ⟨hst1, -⟩ := h1
            -- the first call found no data match for pid, and moved `n`
            -- (a pid-glob match) into data/
            have hfd : find_data st pid = .ok none := by
              unfold is_known at hknown
              split at hknown
              · simp at hknown
              · simp at hknown
              · rename_i heq
                exact heq
            have hfilter : st.data.filter (fun m => globStartsWith pid m) = [] :=
              find_none_filter_nil hfd
            obtain ⟨-, hng⟩ := find_some_mem hfinc
            have hnd : n ∉ st.data := by
              intro hmem
              have : n ∈ st.data.filter (fun m => globStartsWith pid m) :=
                List.mem_filter.2 ⟨hmem, hng⟩
              rw [hfilter] at this
              simp at this
            have hd : (addEntry st.data n).filter (fun m => globStartsWith pid m) =
                [n] := by
              unfold addEntry
              rw [if_neg hnd, List.filter_append, hfilter]
              simp [hng]
            have hfd1 : find_data st1 pid = Except.ok (some n) := by
              rw [← hst1]
              show find_parcel_data_path (addEntry st.data n) pid = Except.ok (some n)
              unfold find_parcel_data_path
              rw [hd]
            have hknown1 : is_known st1 pid = .ok true := by
              unfold is_known
              rw [hfd1]
            intro cmd2 exitCode2 produced2
            unfold run_export
            rw [hknown1]

/-- Concrete instantiation of `run_export_second_call_parcel_exists`. -/
theorem run_export_second_call_parcel_exists_witness :
    run_export (some "exporter") 0 []
      ⟨["2020-01-01T000000Z.json"], [],
        ["2020-01-01T000000Z.out", "2020-01-01T000000Z.err"], none⟩
      "2020-01-01T000000Z" =
    (⟨["2020-01-01T000000Z.json"], [],
      ["2020-01-01T000000Z.out", "2020-01-01T000000Z.err"], none⟩,
     .error "ParcelExistsException: 2020-01-01T000000Z") :=
  run_export_second_call_parcel_exists
    (show run_export (some "exporter") 0 ["2020-01-01T000000Z.json"]
      ⟨[], [], [], none⟩ "2020-01-01T000000Z" =
      (⟨["2020-01-01T000000Z.json"], [],
        ["2020-01-01T000000Z.out", "2020-01-01T000000Z.err"], none⟩,
       .ok (some "2020-01-01T000000Z")) by decide)
    (some "exporter") 0 []

/-! ## Metrics collection: C9 (`_collect_metrics`) -/

/-- Python regex `\s` / `str.strip()` whitespace (ASCII range). -/
def isPySpace (c : Char) : Bool :=
  c = ' ' || c = '\t' || c = '\n' || c = '\x0b' || c = '\x0c' || c = '\r'

/-- `str.strip()` (ASCII whitespace). -/
def pyStrip (s : String) : String :=
  ⟨((s.data.dropWhile isPySpace).reverse.dropWhile isPySpace).reverse⟩

/-- The value a configured metric gets: the command's stripped stdout, or
the literal `"ERROR"` when `subprocess.check_output` raised (nonzero exit
or execution failure) — the oracle `runOut` returns `none` in that case. -/
def metricValue (out : Option String) : String :=
  match out with
  | some o => pyStrip o
  | none => "ERROR"

/-- One iteration of the `for name in cfg.get('metrics', {})` loop. -/
def metricStep (runOut : String → Option String) (acc : Row) (nm : String × String) :
    Row :=
  dictSet acc nm.1 (metricValue (runOut nm.2))

/-- The `if path:` body of `_collect_metrics`: `files` and `bytes` from the
filesystem (oracles `fileCount`/`sizeBytes` keyed by the artifact name),
then one metric per configured `(name, cmd)` pair, in config order. -/
def collectWithPath (cfgMetrics : List (String × String))
    (runOut : String → Option String) (fileCount sizeBytes : String → Nat)
    (results : Row) (p : String) : Row :=
  cfgMetrics.foldl (metricStep runOut)
    (dictSet (dictSet results "files" (toString (fileCount p))) "bytes"
      (toString (sizeBytes p)))

/-- Models `_collect_metrics`: `parcel_id` first, `success` `"Y"`/`"N"` by
whether complete data exists, falling back to the `incomplete/` artifact
for the remaining metrics; either `_find_parcel_data_path` call can raise
the ambiguity error, which propagates. -/
def collect_metrics (cfgMetrics : List (String × String))
    (runOut : String → Option String) (fileCount sizeBytes : String → Nat)
    (st : DatasetState) (pid : String) : Except String Row :=
  match find_data st pid with
  | .error e => .error e
  | .ok (some p) =>
    .ok (collectWithPath cfgMetrics runOut fileCount sizeBytes
      (dictSet [("parcel_id", pid)] "success" "Y") p)
  | .ok none =>
    match find_parcel_data_path st.incomplete pid with
    | .error e => .error e
    | .ok none => .ok (dictSet [("parcel_id", pid)] "success" "N")
    | .ok (some p) =>
      .ok (collectWithPath cfgMetrics runOut fileCount sizeBytes
        (dictSet [("parcel_id", pid)] "success" "N") p)

theorem foldl_metricStep_lookup_not_mem {runOut : String → Option String} :
    ∀ {ms : List (String × String)} {acc : Row} {k : String},
    (∀ nm ∈ ms, nm.1 ≠ k) →
    assocLookup (ms.foldl (metricStep runOut) acc) k = assocLookup acc k := by
  intro ms
  induction ms with
  | nil =>
    intro acc k _
    rfl
  | cons m rest ih =>
    intro acc k h
    rw [List.foldl_cons, ih (fun nm hnm => h nm (List.mem_cons.2 (Or.inr hnm)))]
    exact assocLookup_dictSet_ne (Ne.symm (h m (List.mem_cons_self _ _)))

theorem foldl_metricStep_lookup_mem {runOut : String → Option String} :
    ∀ {ms : List (String × String)} {acc : Row} {nm : String × String},
    (ms.map Prod.fst).Nodup → nm ∈ ms →
    assocLookup (ms.foldl (metricStep runOut) acc) nm.1 =
      some (metricValue (runOut nm.2)) := by
  intro ms
  induction ms with
  | nil =>
    intro acc nm _ h
    simp at h
  | cons m rest ih =>
    intro acc nm hnd hmem
    rw [List.map_cons, List.nodup_cons] at hnd
    rcases List.mem_cons.1 hmem with rfl | hmem
    · rw [List.foldl_cons,
        foldl_metricStep_lookup_not_mem
          (fun q hq hqe => hnd.1 (List.mem_map.2 ⟨q, hq, hqe⟩))]
      exact assocLookup_dictSet_self
    · rw [List.foldl_cons]
      exact ih hnd.2 hmem

theorem collectWithPath_lookup_other {cfgMetrics : List (String × String)}
    {runOut : String → Option String} {fileCount sizeBytes : String → Nat}
    {k : String} (hk : ∀ nm ∈ cfgMetrics, nm.1 ≠ k) (acc : Row) (p : String) :
    assocLookup (collectWithPath cfgMetrics runOut fileCount sizeBytes acc p) k =
      assocLookup (dictSet (dictSet acc "files" (toString (fileCount p))) "bytes"
        (toString (sizeBytes p))) k :=
  foldl_metricStep_lookup_not_mem hk

theorem collectWithPath_lookup_metric {cfgMetrics : List (String × String)}
    {runOut : String → Option String} {fileCount sizeBytes : String → Nat}
    {nm : String × String} (hnd : (cfgMetrics.map Prod.fst).Nodup)
    (hmem : nm ∈ cfgMetrics) (acc : Row) (p : String) :
    assocLookup (collectWithPath cfgMetrics runOut fileCount sizeBytes acc p) nm.1 =
      some (metricValue (runOut nm.2)) :=
  foldl_metricStep_lookup_mem hnd hmem

/-- **C9 (amended).**  Provided the parcel has at most one `data/` and at
most one `incomplete/` glob match (otherwise `_collect_metrics` raises the
ambiguity error instead of returning — see
`collect_metrics_raises_on_ambiguous_artifacts`), and the configured metric
names are distinct and distinct from the four built-in keys, the collection
returns a row with `parcel_id`, with `success = "Y"` exactly when complete
data exists and `"N"` otherwise; with *exactly* `[parcel_id, success]` when
neither artifact exists; and, when an artifact exists, with `files`,
`bytes` and one entry per configured metric whose value is the stripped
command output — or the literal `"ERROR"` when the command failed — so one
failing metric never aborts the rest of the collection. -/
theorem collect_metrics_spec {cfgMetrics : List (String × String)}
    {runOut : String → Option String} {fileCount sizeBytes : String → Nat}
    {st : DatasetState} {pid : String}
    (hD : (st.data.filter (fun n => globStartsWith pid n)).length ≤ 1)
    (hI : (st.incomplete.filter (fun n => globStartsWith pid n)).length ≤ 1)
    (hnd : (cfgMetrics.map Prod.fst).Nodup)
    (hdisj : ∀ nm ∈ cfgMetrics,
      nm.1 ∉ (["parcel_id", "success", "files", "bytes"] : List String)) :
    ∃ r, collect_metrics cfgMetrics runOut fileCount sizeBytes st pid = .ok r ∧
      assocLookup r "parcel_id" = some pid ∧
      ((∃ n, find_data st pid = .ok (some n)) →
        assocLookup r "success" = some "Y") ∧
      (find_data st pid = .ok none → assocLookup r "success" = some "N") ∧
      (find_data st pid = .ok none →
        find_parcel_data_path st.incomplete pid = .ok none →
        r = [("parcel_id", pid), ("success", "N")]) ∧
      (∀ p, (find_data st pid = .ok (some p) ∨
          (find_data st pid = .ok none ∧
            find_parcel_data_path st.incomplete pid = .ok (some p))) →
        assocLookup r "files" = some (toString (fileCount p)) ∧
        assocLookup r "bytes" = some (toString (sizeBytes p)) ∧
        ∀ nm ∈ cfgMetrics,
          assocLookup r nm.1 = some (metricValue (runOut nm.2))) := by
  have hsucc : ∀ nm ∈ cfgMetrics, nm.1 ≠ "success" := by
    intro nm hnm he
    exact hdisj nm hnm (by rw [he]; simp)
  have hpidk : ∀ nm ∈ cfgMetrics, nm.1 ≠ "parcel_id" := by
    intro nm hnm he
    exact hdisj nm hnm (by rw [he]; simp)
  have hfilesk : ∀ nm ∈ cfgMetrics, nm.1 ≠ "files" := by
    intro nm hnm he
    exact hdisj nm hnm (by rw [he]; simp)
  have hbytesk : ∀ nm ∈ cfgMetrics, nm.1 ≠ "bytes" := by
    intro nm hnm he
    exact hdisj nm hnm (by rw [he]; simp)
  have hwp : ∀ b p : String,
      assocLookup (collectWithPath cfgMetrics runOut fileCount sizeBytes
        (dictSet [("parcel_id", pid)] "success" b) p) "parcel_id" = some pid ∧
      assocLookup (collectWithPath cfgMetrics runOut fileCount sizeBytes
        (dictSet [("parcel_id", pid)] "success" b) p) "success" = some b ∧
      assocLookup (collectWithPath cfgMetrics runOut fileCount sizeBytes
        (dictSet [("parcel_id", pid)] "success" b) p) "files" =
        some (toString (fileCount p)) ∧
      assocLookup (collectWithPath cfgMetrics runOut fileCount sizeBytes
        (dictSet [("parcel_id", pid)] "success" b) p) "bytes" =
        some (toString (sizeBytes p)) ∧
      ∀ nm ∈ cfgMetrics,
        assocLookup (collectWithPath cfgMetrics runOut fileCount sizeBytes
          (dictSet [("parcel_id", pid)] "success" b) p) nm.1 =
          some (metricValue (runOut nm.2)) := by
    intro b p
    refine ⟨?_, ?_, ?_, ?_, ?_⟩
    · rw [collectWithPath_lookup_other hpidk,
        assocLookup_dictSet_ne (by decide : ("parcel_id" : String) ≠ "bytes"),
        assocLookup_dictSet_ne (by decide : ("parcel_id" : String) ≠ "files"),
        assocLookup_dictSet_ne (by decide : ("parcel_id" : String) ≠ "success")]
      rfl
    · rw [collectWithPath_lookup_other hsucc,
        assocLookup_dictSet_ne (by decide : ("success" : String) ≠ "bytes"),
        assocLookup_dictSet_ne (by decide : ("success" : String) ≠ "files")]
      exact assocLookup_dictSet_self
    · rw [collectWithPath_lookup_other hfilesk,
        assocLookup_dictSet_ne (by decide : ("files" : String) ≠ "bytes")]
      exact assocLookup_dictSet_self
    · rw [collectWithPath_lookup_other hbytesk]
      exact assocLookup_dictSet_self
    · intro nm hnm
      exact collectWithPath_lookup_metric hnd hnm _ _
  rcases find_parcel_data_path_cases hD with
    ⟨hfindD, hnoneD⟩ | ⟨pD, hfindD, hmemD, hgD, huniqD⟩
  · -- no complete data
    have hfdD : find_data st pid = .ok none := hfindD
    rcases find_parcel_data_path_cases hI with
      ⟨hfindI, hnoneI⟩ | ⟨pI, hfindI, hmemI, hgI, huniqI⟩
    · -- no incomplete artifact either: exactly the two-entry row
      have hr : dictSet [("parcel_id", pid)] "success" "N" =
          [("parcel_id", pid), ("success", "N")] := rfl
      refine ⟨dictSet [("parcel_id", pid)] "success" "N", ?_, ?_, ?_,
        fun _ => assocLookup_dictSet_self, fun _ _ => hr, ?_⟩
      · unfold collect_metrics
        rw [hfdD, hfindI]
      · rw [assocLookup_dictSet_ne (by decide : ("parcel_id" : String) ≠ "success")]
        rfl
      · rintro ⟨n, hn⟩
        rw [hfdD] at hn
        simp at hn
      · intro p hp
        rcases hp with hp | ⟨-, hsome⟩
        · rw [hfdD] at hp
          simp at hp
        · rw [hfindI] at hsome
          simp at hsome
    · -- incomplete artifact found
      obtain ⟨hl1, hl2, hl3, hl4, hl5⟩ := hwp "N" pI
      refine ⟨_, ?_, hl1, ?_, fun _ => hl2, ?_, ?_⟩
      · unfold collect_metrics
        rw [hfdD, hfindI]
      · rintro ⟨n, hn⟩
        rw [hfdD] at hn
        simp at hn
      · intro _ hnone
        rw [hfindI] at hnone
        simp at hnone
      · intro p hp
        rcases hp with hp | ⟨-, hsome⟩
        · rw [hfdD] at hp
          simp at hp
        · have hpp : pI = p := by
            rw [hfindI] at hsome
            injection hsome with h'
            injection h'
          subst hpp
          exact ⟨hl3, hl4, hl5⟩
  · -- complete data found
    have hfdD : find_data st pid = .ok (some pD) := hfindD
    obtain ⟨hl1, hl2, hl3, hl4, hl5⟩ := hwp "Y" pD
    refine ⟨_, ?_, hl1, fun _ => hl2, ?_, ?_, ?_⟩
    · unfold collect_metrics
      rw [hfdD]
    · intro hnone
      rw [hfdD] at hnone
      simp at hnone
    · intro hnone _
      rw [hfdD] at hnone
      simp at hnone
    · intro p hp
      rcases hp with hp | ⟨hnone, -⟩
      · have hpp : pD = p := by
          rw [hfdD] at hp
          injection hp with h'
          injection h'
        subst hpp
        exact ⟨hl3, hl4, hl5⟩
      · rw [hfdD] at hnone
        simp at hnone

/-- Concrete instantiation of `collect_metrics_spec`: a parcel with one
data artifact and one configured metric whose command fails. -/
theorem collect_metrics_spec_witness :
    ∃ r, collect_metrics [("lines", "wc -l")] (fun _ => none) (fun _ => 2)
        (fun _ => 10) ⟨["2020-01-01T000000Z.txt"], [], [], none⟩
        "2020-01-01T000000Z" = .ok r ∧
      assocLookup r "parcel_id" = some "2020-01-01T000000Z" ∧
      ((∃ n, find_data ⟨["2020-01-01T000000Z.txt"], [], [], none⟩
          "2020-01-01T000000Z" = .ok (some n)) →
        assocLookup r "success" = some "Y") ∧
      (find_data ⟨["2020-01-01T000000Z.txt"], [], [], none⟩ "2020-01-01T000000Z" =
          .ok none → assocLookup r "success" = some "N") ∧
      (find_data ⟨["2020-01-01T000000Z.txt"], [], [], none⟩ "2020-01-01T000000Z" =
          .ok none →
        find_parcel_data_path ([] : List String) "2020-01-01T000000Z" = .ok none →
        r = [("parcel_id", "2020-01-01T000000Z"), ("success", "N")]) ∧
      (∀ p, (find_data ⟨["2020-01-01T000000Z.txt"], [], [], none⟩
            "2020-01-01T000000Z" = .ok (some p) ∨
          (find_data ⟨["2020-01-01T000000Z.txt"], [], [], none⟩
              "2020-01-01T000000Z" = .ok none ∧
            find_parcel_data_path ([] : List String) "2020-01-01T000000Z" =
              .ok (some p))) →
        assocLookup r "files" = some (toString (2 : Nat)) ∧
        assocLookup r "bytes" = some (toString (10 : Nat)) ∧
        ∀ nm ∈ ([("lines", "wc -l")] : List (String × String)),
          assocLookup r nm.1 = some "ERROR") :=
  collect_metrics_spec (by decide) (by decide) (by decide) (by decide)

/-- **C9 (counterexample).**  "`collectMetrics` always returns a row
containing `parcel_id` and `success`" fails when two `data/` entries match
the parcel id glob: `pa.find_data()` raises the ambiguity exception, which
`_collect_metrics` does not catch (its `try` only wraps the per-metric
subprocess call), so no row is returned at all. -/
theorem collect_metrics_raises_on_ambiguous_artifacts :
    collect_metrics [] (fun _ => none) (fun _ => 0) (fun _ => 0)
      ⟨["2020-01-01T000000Z.txt", "2020-01-01T000000Z.json"], [], [], none⟩
      "2020-01-01T000000Z" =
      .error "multiple data files or dirs exist for 2020-01-01T000000Z" := by
  decide

/-! ## Scheduling: C3 (`is_due` and `parse_delta`) -/

/-- `_interval._UNITS`, in dict insertion order. -/
def UNITS : List (String × String) :=
  [("w", "weeks"), ("wk", "weeks"), ("week", "weeks"), ("weeks", "weeks"),
   ("d", "days"), ("day", "days"), ("days", "days"),
   ("h", "hours"), ("hour", "hours"), ("hours", "hours"), ("hr", "hours"),
   ("m", "minutes"), ("min", "minutes"), ("mins", "minutes"),
   ("minute", "minutes"), ("minutes", "minutes"),
   ("s", "seconds"), ("sec", "seconds"), ("secs", "seconds"),
   ("second", "seconds"), ("seconds", "seconds")]

def skipSpaces : List Char → List Char
  | [] => []
  | c :: cs => if isPySpace c then skipSpaces cs else c :: cs

/-- `float(qty)` of a digit string, used as an exact integer quantity. -/
def digitsToNat (ds : List Char) : Nat :=
  ds.foldl (fun n c => 10 * n + digitVal c) 0

/-- The language of `_DELTA_RE` = `\A(\s*(\d+)\s*(w|wk|…|seconds)\s*,?\s*)+\Z`
together with the `(qty, unit-category)` pairs `_PART_RE.findall` extracts
from an accepted string.  The backtracking regex accepts exactly the strings
in which every part is spaces, digits, spaces, then a maximal lowercase
letter run that is *exactly* one `_UNITS` key, then spaces and at most one
comma: a shorter alternation branch (the alternation tries `w` before
`weeks` etc.) always strands letters that nothing else in the pattern can
consume, so first-match-plus-backtracking and maximal-run parsing accept
the same strings.  On an accepted string, `findall`'s first-match token and
the maximal run share their first letter and every `_UNITS` key with the
same first letter maps to the same category, so the category per part is
that of the maximal run. -/
def parseDeltaParts : Nat → List Char → Option (List (Nat × String))
  | 0, _ => none
  | fuel + 1, cs =>
    let cs1 := skipSpaces cs
    match cs1.span (fun c => c.isDigit) with
    | (ds, cs2) =>
      if ds.isEmpty then none
      else
        let cs3 := skipSpaces cs2
        match cs3.span (fun c => c.isLower) with
        | (run, cs4) =>
          match assocLookup UNITS ⟨run⟩ with
          | none => none
          | some cat =>
            let cs5 := skipSpaces cs4
            let cs6 := match cs5 with
              | ',' :: t => skipSpaces t
              | _ => cs5
            if cs6.isEmpty then some [(digitsToNat ds, cat)]
            else
              match parseDeltaParts fuel cs6 with
              | none => none
              | some ps => some ((digitsToNat ds, cat) :: ps)

/-- Models `_interval.parse_delta`, returning the `timedelta` as its total
number of seconds; `.error` models the `ValueError`.  The
`units[_UNITS[unit]] = float(qty)` loop makes the last occurrence of a
category win. -/
def parse_delta (s : String) : Except String Int :=
  match parseDeltaParts (s.data.length + 1) s.data with
  | none => .error ("Unrecognized duration: " ++ s)
  | some parts =>
    let pick := fun (cat : String) =>
      parts.foldl (fun acc p => if p.2 = cat then (p.1 : Int) else acc) (0 : Int)
    .ok (604800 * pick "weeks" + 86400 * pick "days" + 3600 * pick "hours"
      + 60 * pick "minutes" + pick "seconds")

example : parse_delta "1 week" = .ok 604800 := by decide
example : parse_delta "5 minutes 3 seconds" = .ok 303 := by decide
example : parse_delta "1 day, 2 hours" = .ok 93600 := by decide
example : parse_delta "1w2d3h5m4s" = .ok (604800 + 2 * 86400 + 3 * 3600 + 5 * 60 + 4) := by
  decide
example : (parse_delta "eventually").isOk = false := by decide

/-- Models `Dataset.is_due`: `cfg_interval` is the `interval` config value
(`none` when absent), `now` is `datetime.now(...)` (tz-naive, like the
parsed parcel ids), and `margin` is the margin in seconds (the default is
`timedelta(minutes=5)` = 300).  `if not delta_str` is true for both a
missing and an empty-string interval; `ids[-1]` of the sorted enumeration
is its last element; `(now - last) >= delta` compares exact seconds. -/
def is_due (cfg_interval : Option String) (st : DatasetState) (now : PyDateTime)
    (margin : Int) : Except String Bool :=
  match cfg_interval with
  | none => .ok false
  | some dstr =>
    if dstr = "" then .ok false
    else
      match parse_delta dstr with
      | .error e => .error e
      | .ok dsecs =>
        match (find_parcel_ids st).getLast? with
        | none => .ok true
        | some lastId =>
          match parse_parcel_id lastId with
          | .error e => .error e
          | .ok last =>
            .ok (decide (now.toEpochSeconds - last.toEpochSeconds ≥ dsecs - margin))

/-- The claim's notion of "known parcel ids" (spec-modelled, for comparison
with the code's `find_parcel_ids`): also counts ids that only a metrics row
references. -/
def knownParcelIds (st : DatasetState) : List String :=
  sortByKey (fun s => s)
    (((st.data.map stem ++ st.incomplete.map stem ++
      (st.log.filter globHasDot).map stem ++
      (match read_metrics st.metrics with
       | .ok m => m.map Prod.fst
       | .error _ => [])).dedup).filter (fun i => matchesParcelIdFormat i))

/-- `is_due` as the claim words it (spec-modelled): `last` is the
lexicographic maximum of the *known* parcel ids, metrics rows included. -/
def is_due_claim (cfg_interval : Option String) (st : DatasetState)
    (now : PyDateTime) (margin : Int) : Except String Bool :=
  match cfg_interval with
  | none => .ok false
  | some dstr =>
    if dstr = "" then .ok false
    else
      match parse_delta dstr with
      | .error e => .error e
      | .ok dsecs =>
        match (knownParcelIds st).getLast? with
        | none => .ok true
        | some lastId =>
          match parse_parcel_id lastId with
          | .error e => .error e
          | .ok last =>
            .ok (decide (now.toEpochSeconds - last.toEpochSeconds ≥ dsecs - margin))

theorem le_getLast_of_sorted : ∀ {l : List String}, l.Pairwise (· ≤ ·) →
    ∀ {x : String}, l.getLast? = some x → ∀ q ∈ l, q ≤ x := by
  intro l
  induction l with
  | nil =>
    intro _ x h
    simp at h
  | cons a as ih =>
    intro hp x hlast q hq
    cases as with
    | nil =>
      have hx : a = x := Option.some.inj hlast
      rcases List.mem_cons.1 hq with rfl | h
      · exact hx ▸ le_refl q
      · simp at h
    | cons b bs =>
      rw [List.getLast?_cons_cons] at hlast
      rw [List.pairwise_cons] at hp
      rcases List.mem_cons.1 hq with rfl | h
      · exact hp.1 x (List.mem_of_mem_getLast? hlast)
      · exact ih hp.2 hlast q h

/-- **C3 (amended).**  `is_due` returns `False` when no `interval` is
configured (or it is the empty string); with a parseable interval it
returns `True` when no *extant* parcel is enumerated, and otherwise
compares `now - timestamp(last)` against `interval - margin` where `last`
is the lexicographic maximum of the *extant* parcel ids — ids whose only
trace is a metrics row are ignored, refuting the claim's "known" reading
(see `is_due_ignores_metrics_known_parcels`). -/
theorem is_due_characterization (st : DatasetState) (now : PyDateTime) (margin : Int) :
    is_due none st now margin = .ok false ∧
    is_due (some "") st now margin = .ok false ∧
    ∀ dstr, dstr ≠ "" →
      ∀ ds, parse_delta dstr = .ok ds →
        (find_parcel_ids st = [] → is_due (some dstr) st now margin = .ok true) ∧
        ∀ lastId, (find_parcel_ids st).getLast? = some lastId →
          (∀ q ∈ find_parcel_ids st, q ≤ lastId) ∧
          ∀ last, parse_parcel_id lastId = .ok last →
            is_due (some dstr) st now margin =
              .ok (decide (now.toEpochSeconds - last.toEpochSeconds ≥ ds - margin)) := by
  refine ⟨rfl, by simp [is_due], ?_⟩
  intro dstr hne ds hpd
  constructor
  · intro hnil
    simp [is_due, hne, hpd, hnil]
  · intro lastId hlast
    refine ⟨le_getLast_of_sorted (find_parcel_ids_sorted st) hlast, ?_⟩
    intro last hpp
    simp [is_due, hne, hpd, hlast, hpp]

/-- Concrete instantiation of `is_due_characterization`. -/
theorem is_due_characterization_witness :
    is_due (some "1 day") ⟨["2020-01-01T000000Z.txt"], [], [], none⟩
      ⟨2020, 1, 2, 0, 0, 0⟩ 300 =
    .ok (decide ((⟨2020, 1, 2, 0, 0, 0⟩ : PyDateTime).toEpochSeconds -
      (⟨2020, 1, 1, 0, 0, 0⟩ : PyDateTime).toEpochSeconds ≥ 86400 - 300)) :=
  ((((is_due_characterization ⟨["2020-01-01T000000Z.txt"], [], [], none⟩
      ⟨2020, 1, 2, 0, 0, 0⟩ 300).2.2 "1 day" (by decide) 86400 (by decide)).2
      "2020-01-01T000000Z" (by decide)).2 ⟨2020, 1, 1, 0, 0, 0⟩ (by decide))

/-- **C3 (counterexample).**  The claim's `last` is the lexicographic
maximum of the *known* ids (metrics rows included); the code's is the
maximum of the *extant* ids only (`find_parcel_ids` skips metrics-only
ids).  Here the newest known parcel exists only as a metrics row, less than
a day before `now`, while the only extant parcel is nine days old: the code
says due, the claim as written says not due. -/
theorem is_due_ignores_metrics_known_parcels :
    is_due (some "1 day")
      ⟨["2020-01-01T000000Z.txt"], [], [],
        some ⟨["parcel_id"], [["2020-01-10T000000Z"]]⟩⟩
      ⟨2020, 1, 10, 12, 0, 0⟩ 300 = .ok true ∧
    is_due_claim (some "1 day")
      ⟨["2020-01-01T000000Z.txt"], [], [],
        some ⟨["parcel_id"], [["2020-01-10T000000Z"]]⟩⟩
      ⟨2020, 1, 10, 12, 0, 0⟩ 300 = .ok false := by
  decide

theorem mem_addEntry_of_mem {l : List String} {n x : String} (hn : n ∈ l) :
    n ∈ addEntry l x := by
  unfold addEntry
  split
  · exact hn
  · exact List.mem_append.2 (Or.inl hn)

theorem mem_addEntry_self {l : List String} {n : String} : n ∈ addEntry l n := by
  unfold addEntry
  split
  · rename_i h
    exact h
  · exact List.mem_append.2 (Or.inr (by simp))

theorem mem_foldl_addEntry {l : List String} {n : String} (hn : n ∈ l) :
    ∀ ps : List String, n ∈ ps.foldl addEntry l := by
  intro ps
  induction ps generalizing l with
  | nil => exact hn
  | cons p rest ih => exact ih (mem_addEntry_of_mem hn)

/-- Transport of enumerated parcel ids along directory growth: every id
extant in `st` stays extant when data entries survive in `data/`,
incomplete entries survive in `incomplete/` or move to `data/` (keeping
their name, as `_run_export`'s rename does), and log entries survive. -/
theorem ids_mono {st st' : DatasetState}
    (hd : ∀ n ∈ st.data, n ∈ st'.data)
    (hi : ∀ n ∈ st.incomplete, n ∈ st'.incomplete ∨ n ∈ st'.data)
    (hl : ∀ n ∈ st.log, n ∈ st'.log) :
    ∀ q ∈ find_parcel_ids st, q ∈ find_parcel_ids st' := by
  intro q hq
  rw [mem_find_parcel_ids] at hq ⊢
  obtain ⟨hfmt, hw⟩ := hq
  refine ⟨hfmt, ?_⟩
  rcases hw with h | h | h
  · obtain ⟨n, hn, hs⟩ := List.mem_map.1 h
    exact Or.inl (List.mem_map.2 ⟨n, hd n hn, hs⟩)
  · obtain ⟨n, hn, hs⟩ := List.mem_map.1 h
    rcases hi n hn with h' | h'
    · exact Or.inr (Or.inl (List.mem_map.2 ⟨n, h', hs⟩))
    · exact Or.inl (List.mem_map.2 ⟨n, h', hs⟩)
  · obtain ⟨n, hnf, hs⟩ := List.mem_map.1 h
    obtain ⟨hn, hdot⟩ := List.mem_filter.1 hnf
    exact Or.inr (Or.inr (List.mem_map.2 ⟨n, List.mem_filter.2 ⟨hl n hn, hdot⟩, hs⟩))

/-- The `for path in found` loop of `_run_ingest` with `time_source = "now"`
(the default): each matched file is given the next fresh id, the
parcel-exists guard can raise (uncaught by `process`), and an ingested file
becomes a `data/` entry named `<id><suffix>` (`with_suffix` keeps the
source's suffix).  The accumulator mirrors the `parcel_ids[parcel_id] =
path` dict. -/
def ingestLoop : List ((String × String) × String) → DatasetState →
    List (String × String) → Except String (DatasetState × List (String × String))
  | [], st, acc => .ok (st, acc)
  | ((path, suffix), pid) :: rest, st, acc =>
    match is_known st pid with
    | .error e => .error e
    | .ok true => .error ("ParcelExistsException: " ++ pid)
    | .ok false =>
      ingestLoop rest { st with data := addEntry st.data (pid ++ suffix) }
        (dictSet acc pid path)

/-- Models `_run_ingest`: a no-op returning `{}` when no `ingest.paths`
globs are configured; otherwise the matched files (oracle `found`, as
`(path, suffix)` pairs) are ingested under the fresh ids the clock
provides (oracle `ids`). -/
def run_ingest (globs : List String) (found : List (String × String))
    (ids : List String) (st : DatasetState) :
    Except String (DatasetState × List (String × String)) :=
  if globs.isEmpty then .ok (st, [])
  else ingestLoop (found.zip ids) st []

theorem ingestLoop_dirs : ∀ {items : List ((String × String) × String)}
    {st : DatasetState} {acc : List (String × String)} {st' : DatasetState}
    {acc' : List (String × String)},
    ingestLoop items st acc = .ok (st', acc') →
    (∀ n ∈ st.data, n ∈ st'.data) ∧ st'.incomplete = st.incomplete ∧
    st'.log = st.log ∧ st'.metrics = st.metrics := by
  intro items
  induction items with
  | nil =>
    intro st acc st' acc' h
    rw [ingestLoop] at h
    injection h with h'
    rw [Prod.mk.injEq] at h'
    obtain ⟨rfl, -⟩ := h'
    exact ⟨fun n hn => hn, rfl, rfl, rfl⟩
  | cons item rest ih =>
    intro st acc st' acc' h
    obtain ⟨⟨path, suffix⟩, pid⟩ := item
    rw [ingestLoop] at h
    split at h
    · simp at h
    · simp at h
    · have hrec := ih h
      refine ⟨fun n hn => hrec.1 n (mem_addEntry_of_mem hn), hrec.2.1, hrec.2.2.1,
        hrec.2.2.2⟩

theorem run_ingest_ids_mono {globs : List String} {found : List (String × String)}
    {ids : List String} {st st' : DatasetState} {acc : List (String × String)}
    (h : run_ingest globs found ids st = .ok (st', acc)) :
    ∀ q ∈ find_parcel_ids st, q ∈ find_parcel_ids st' := by
  unfold run_ingest at h
  split at h
  · injection h with h'
    rw [Prod.mk.injEq] at h'
    obtain ⟨hst, -⟩ := h'
    rw [← hst]
    exact fun q hq => hq
  · obtain ⟨hd, hi, hl, -⟩ := ingestLoop_dirs h
    exact ids_mono hd (fun n hn => Or.inl (hi ▸ hn)) (fun n hn => hl ▸ hn)

theorem run_export_entry_mono {cmd : Option String} {exitCode : Int}
    {produced : List String} {st : DatasetState} {pid : String}
    {st' : DatasetState} {r : Except String (Option String)}
    (h : run_export cmd exitCode produced st pid = (st', r)) :
    (∀ n ∈ st.data, n ∈ st'.data) ∧
    (∀ n ∈ st.incomplete, n ∈ st'.incomplete ∨ n ∈ st'.data) ∧
    (∀ n ∈ st.log, n ∈ st'.log) := by
  unfold run_export at h
  split at h
  · rw [Prod.mk.injEq] at h
    obtain ⟨rfl, -⟩ := h
    exact ⟨fun n hn => hn, fun n hn => Or.inl hn, fun n hn => hn⟩
  · rw [Prod.mk.injEq] at h
    obtain ⟨rfl, -⟩ := h
    exact ⟨fun n hn => hn, fun n hn => Or.inl hn, fun n hn => hn⟩
  · split at h
    · rw [Prod.mk.injEq] at h
      obtain ⟨rfl, -⟩ := h
      exact ⟨fun n hn => hn, fun n hn => Or.inl hn, fun n hn => hn⟩
    · split at h
      · rw [Prod.mk.injEq] at h
        obtain ⟨rfl, -⟩ := h
        exact ⟨fun n hn => hn, fun n hn => Or.inl hn, fun n hn => hn⟩
      · simp only [] at h
        split at h
        · rw [Prod.mk.injEq] at h
          obtain ⟨rfl, -⟩ := h
          refine ⟨fun n hn => hn, fun n hn => Or.inl ?_, fun n hn => ?_⟩
          · exact mem_foldl_addEntry hn produced
          · exact mem_addEntry_of_mem (mem_addEntry_of_mem hn)
        · split at h
          · rw [Prod.mk.injEq] at h
            obtain ⟨rfl, -⟩ := h
            refine ⟨fun n hn => hn, fun n hn => Or.inl ?_, fun n hn => ?_⟩
            · exact mem_foldl_addEntry hn produced
            · exact mem_addEntry_of_mem (mem_addEntry_of_mem hn)
          · rw [Prod.mk.injEq] at h
            obtain ⟨rfl, -⟩ := h
            refine ⟨fun n hn => hn, fun n hn => Or.inl ?_, fun n hn => ?_⟩
            · exact mem_foldl_addEntry hn produced
            · exact mem_addEntry_of_mem (mem_addEntry_of_mem hn)
          · rename_i n0 hfinc
            rw [Prod.mk.injEq] at h
            obtain ⟨rfl, -⟩ := h
            refine ⟨fun n hn => mem_addEntry_of_mem hn, fun n hn => ?_,
              fun n hn => mem_addEntry_of_mem (mem_addEntry_of_mem hn)⟩
            by_cases he : n = n0
            · subst he
              exact Or.inr mem_addEntry_self
            · exact Or.inl (mem_removeEntry_of_ne (mem_foldl_addEntry hn produced) he)

theorem run_export_ids_mono {cmd : Option String} {exitCode : Int}
    {produced : List String} {st : DatasetState} {pid : String}
    {st' : DatasetState} {r : Except String (Option String)}
    (h : run_export cmd exitCode produced st pid = (st', r)) :
    ∀ q ∈ find_parcel_ids st, q ∈ find_parcel_ids st' := by
  obtain ⟨hd, hi, hl⟩ := run_export_entry_mono h
  exact ids_mono hd hi hl

/-- `updates = {p: self._collect_metrics(p) for p in parcel_ids}`: the rows
in id order; any ambiguity exception aborts the comprehension. -/
def collectAll (cfgMetrics : List (String × String))
    (runOut : String → Option String) (fileCount sizeBytes : String → Nat)
    (st : DatasetState) : List String → Except String (List Row)
  | [] => .ok []
  | pid :: rest =>
    match collect_metrics cfgMetrics runOut fileCount sizeBytes st pid with
    | .error e => .error e
    | .ok r =>
      match collectAll cfgMetrics runOut fileCount sizeBytes st rest with
      | .error e => .error e
      | .ok rs => .ok (r :: rs)

/-- The `added` list `process` builds for its commit:
`str(pa.find_data().relative_to(self.path))` per new parcel id that has
complete data; `find_data` can raise here, uncaught. -/
def addedPaths (st : DatasetState) : List String → Except String (List String)
  | [] => .ok []
  | pid :: rest =>
    match find_data st pid with
    | .error e => .error e
    | .ok none => addedPaths st rest
    | .ok (some n) =>
      match addedPaths st rest with
      | .error e => .error e
      | .ok ps => .ok (("data/" ++ n) :: ps)

/-- What a `process()` call did: the resulting dataset state, the new
parcel ids it reports, how many exceptions it caught into its `errors`
list, and the `add`-lists of the `self._commit(...)` calls it made, in
order (`_commit` itself then stages and commits only under `git = true`). -/
structure ProcessResult where
  state : DatasetState
  newIds : List String
  nErrors : Nat
  commits : List (List String)
deriving DecidableEq, Repr

/-- Models `process()`: ingest (exceptions propagate — the code's
`# TODO: handle errors here`), export if due (exceptions caught), metrics
update (exceptions caught), then a single commit staging `metrics.csv`
plus the data artifact of every new parcel id.  `clean` is never called.
Oracles: `found`/`ingestIds` for the ingest globs and clock,
`exitCode`/`produced` for the export command, `exportId` for
`new_parcel_id()`, `runOut`/`fileCount`/`sizeBytes` for metrics, `now` for
the due check (default margin 300 s). -/
def process (cfg_interval : Option String) (globs : List String)
    (found : List (String × String)) (ingestIds : List String)
    (cmd : Option String) (exitCode : Int) (produced : List String)
    (exportId : String) (cfgMetrics : List (String × String))
    (runOut : String → Option String) (fileCount sizeBytes : String → Nat)
    (now : PyDateTime) (st : DatasetState) : Except String ProcessResult :=
  match run_ingest globs found ingestIds st with
  | .error e => .error e
  | .ok (st1, ingested) =>
    match is_due cfg_interval st1 now 300 with
    | .error e => .error e
    | .ok due =>
      match (if due then
          match run_export cmd exitCode produced st1 exportId with
          | (st2, .error _) => (st2, ingested.map Prod.fst ++ [exportId], 1)
          | (st2, .ok _) => (st2, ingested.map Prod.fst ++ [exportId], 0)
        else (st1, ingested.map Prod.fst, 0)) with
      | (st2, pids, errs1) =>
        match (match collectAll cfgMetrics runOut fileCount sizeBytes st2 pids with
          | .error _ => (st2, 1)
          | .ok updates =>
            match update_metrics st2.metrics updates with
            | .error _ => (st2, 1)
            | .ok m' => ({ st2 with metrics := m' }, 0)) with
        | (st3, errs2) =>
          match addedPaths st3 pids with
          | .error e => .error e
          | .ok paths =>
            .ok ⟨st3, pids, errs1 + errs2, [("metrics.csv" :: paths)]⟩

theorem find_parcel_ids_congr {st st' : DatasetState} (hd : st'.data = st.data)
    (hi : st'.incomplete = st.incomplete) (hl : st'.log = st.log) :
    find_parcel_ids st' = find_parcel_ids st := by
  unfold find_parcel_ids
  rw [hd, hi, hl]

/-- **C2 (amended).**  Whenever `process()` returns (rather than raising),
it has performed exactly one commit, staging `metrics.csv` plus the data
artifact of every new parcel id — and it has pruned nothing: every parcel
id extant before the call is still extant after it, whatever retention
`keep` the dataset configures, because `process` never calls `clean` (see
`process_ignores_keep_retention`). -/
theorem process_commits_once_and_never_cleans {cfg_interval : Option String}
    {globs : List String} {found : List (String × String)}
    {ingestIds : List String} {cmd : Option String} {exitCode : Int}
    {produced : List String} {exportId : String}
    {cfgMetrics : List (String × String)} {runOut : String → Option String}
    {fileCount sizeBytes : String → Nat} {now : PyDateTime} {st : DatasetState}
    {res : ProcessResult}
    (h : process cfg_interval globs found ingestIds cmd exitCode produced exportId
      cfgMetrics runOut fileCount sizeBytes now st = .ok res) :
    (∃ ps, res.commits = [("metrics.csv" :: ps)] ∧
      addedPaths res.state res.newIds = .ok ps) ∧
    (∀ q ∈ find_parcel_ids st, q ∈ find_parcel_ids res.state) := by
  unfold process at h
  split at h
  · simp at h
  · rename_i st1 ingested hing
    split at h
    · simp at h
    · rename_i due hdue
      obtain ⟨st2, pids, errs1, hstep2, hmono2⟩ :
          ∃ st2 pids errs1, (if due then
              match run_export cmd exitCode produced st1 exportId with
              | (st2, .error _) => (st2, ingested.map Prod.fst ++ [exportId], 1)
              | (st2, .ok _) => (st2, ingested.map Prod.fst ++ [exportId], 0)
            else (st1, ingested.map Prod.fst, 0)) = (st2, pids, errs1) ∧
            ∀ q ∈ find_parcel_ids st1, q ∈ find_parcel_ids st2 := by
        cases due with
        | false => exact ⟨st1, ingested.map Prod.fst, 0, rfl, fun q hq => hq⟩
        | true =>
          rcases hexp : run_export cmd exitCode produced st1 exportId with ⟨st2, r⟩
          cases r with
          | error e =>
            exact ⟨st2, ingested.map Prod.fst ++ [exportId], 1, rfl,
              run_export_ids_mono hexp⟩
          | ok v =>
            exact ⟨st2, ingested.map Prod.fst ++ [exportId], 0, rfl,
              run_export_ids_mono hexp⟩
      simp only [hstep2] at h
      obtain ⟨st3, errs2, hstep3, hd3, hi3, hl3⟩ :
          ∃ st3 errs2, (match collectAll cfgMetrics runOut fileCount sizeBytes
              st2 pids with
            | .error _ => (st2, 1)
            | .ok updates =>
              match update_metrics st2.metrics updates with
              | .error _ => (st2, 1)
              | .ok m' => ({ st2 with metrics := m' }, 0)) = (st3, errs2) ∧
            st3.data = st2.data ∧ st3.incomplete = st2.incomplete ∧
            st3.log = st2.log := by
        rcases hcoll : collectAll cfgMetrics runOut fileCount sizeBytes st2 pids with
          e | updates
        · exact ⟨st2, 1, rfl, rfl, rfl, rfl⟩
        · rcases hupd : update_metrics st2.metrics updates with e | m'
          · exact ⟨st2, 1, by simp only [hupd], rfl, rfl, rfl⟩
          · exact ⟨{ st2 with metrics := m' }, 0, by simp only [hupd], rfl, rfl, rfl⟩
      simp only [hstep3] at h
      split at h
      · simp at h
      · rename_i paths hpaths
        injection h with h'
        subst h'
        refine ⟨⟨paths, rfl, hpaths⟩, ?_⟩
        intro q hq
        have h1 := run_ingest_ids_mono hing q hq
        have h2 := hmono2 q h1
        show q ∈ find_parcel_ids st3
        rw [find_parcel_ids_congr hd3 hi3 hl3]
        exact h2

/-- Concrete instantiation of `process_commits_once_and_never_cleans`. -/
theorem process_commits_once_and_never_cleans_witness :
    (∃ ps, (⟨⟨["2021-05-05T000000Z.txt"], [], [], none⟩, [], 0,
        [["metrics.csv"]]⟩ : ProcessResult).commits = [("metrics.csv" :: ps)] ∧
      addedPaths (⟨["2021-05-05T000000Z.txt"], [], [], none⟩ : DatasetState)
        ([] : List String) = .ok ps) ∧
    (∀ q ∈ find_parcel_ids (⟨["2021-05-05T000000Z.txt"], [], [],
        none⟩ : DatasetState),
      q ∈ find_parcel_ids (⟨["2021-05-05T000000Z.txt"], [], [],
        none⟩ : DatasetState)) :=
  process_commits_once_and_never_cleans
    (show process none [] [] [] none 0 [] "2021-05-06T000000Z" []
        (fun _ => none) (fun _ => 0) (fun _ => 0) ⟨2021, 5, 6, 0, 0, 0⟩
        ⟨["2021-05-05T000000Z.txt"], [], [], none⟩ =
      .ok ⟨⟨["2021-05-05T000000Z.txt"], [], [], none⟩, [], 0, [["metrics.csv"]]⟩
      by decide)

/-- **C2 (counterexample).**  `process()` never runs the retention cleanup:
on a dataset with three extant parcels (and any positive `keep` — `process`
does not even read it), `process` returns with all three still extant and
a single `metrics.csv`-only commit, whereas `clean` with the configured
`keep = 1` would leave one. -/
theorem process_ignores_keep_retention :
    process none [] [] [] none 0 [] "2020-01-04T000000Z" [] (fun _ => none)
      (fun _ => 0) (fun _ => 0) ⟨2020, 1, 4, 0, 0, 0⟩
      ⟨["2020-01-01T000000Z.txt", "2020-01-02T000000Z.txt",
        "2020-01-03T000000Z.txt"], [], [], none⟩ =
      .ok ⟨⟨["2020-01-01T000000Z.txt", "2020-01-02T000000Z.txt",
        "2020-01-03T000000Z.txt"], [], [], none⟩, [], 0, [["metrics.csv"]]⟩ ∧
    (find_parcel_ids ⟨["2020-01-01T000000Z.txt", "2020-01-02T000000Z.txt",
      "2020-01-03T000000Z.txt"], [], [], none⟩).length = 3 ∧
    (find_parcel_ids (clean (some 1) ⟨["2020-01-01T000000Z.txt",
      "2020-01-02T000000Z.txt", "2020-01-03T000000Z.txt"], [], [],
      none⟩).state).length = 1 := by
  decide

end ExportManager
